import Mathlib

/-!
Verification of the neptune-unit-loader dependency-resolution core.

The definitions below are a shallow embedding of the Rust sources:
  * `src/unit/types.rs`   — the unit data model and `UnitFile::validate`
  * `src/unit/errors.rs`  — the error taxonomy used by the resolver
  * `src/parser/generator.rs` — `generate_unit_list` (the resolver)

Rust `Vec<T>` becomes `List T`, `HashMap<K,V>` becomes an insertion-ordered
association list whose lookup returns the value of the latest insert (the
only observable behaviour the code relies on), `Result<T,E>` becomes
`Except E T`, and a possible panic (the `.unwrap()` in the resolver) is
modelled by an outer `Option`, `none` meaning "panicked".
-/

/-- Embeds `enum UnitType` from `src/unit/types.rs`. -/
inductive UnitType where
  | Service
  | Target
deriving DecidableEq, Repr, Inhabited

/-- Embeds `struct UnitSection` from `src/unit/types.rs`. -/
structure UnitSection where
  unit_name : String
  description : Option String
  unit_type : UnitType
deriving DecidableEq, Repr, Inhabited

/-- Embeds `struct TodoSection` from `src/unit/types.rs`.  The environment
`HashMap<String, String>` is carried as an association list; it is opaque
data to everything verified here. -/
structure TodoSection where
  path : String
  args : List String
  env : List (String × String)
deriving DecidableEq, Repr, Inhabited

/-- Embeds `struct ServiceSection` from `src/unit/types.rs`. -/
structure ServiceSection where
  command_on_restart : Option String
  command_on_stop : Option String
deriving DecidableEq, Repr, Inhabited

/-- Embeds `struct TargetSection` from `src/unit/types.rs`. -/
structure TargetSection where
  is_runnable_once : Bool
deriving DecidableEq, Repr, Inhabited

/-- Embeds `struct DependencySection` from `src/unit/types.rs`. -/
structure DependencySection where
  needs_before : List String
  needs_after : List String
deriving DecidableEq, Repr, Inhabited

/-- Embeds `struct UnitFile` from `src/unit/types.rs`. -/
structure UnitFile where
  unit : UnitSection
  todo : TodoSection
  service : Option ServiceSection
  target : Option TargetSection
  dependency : DependencySection
deriving DecidableEq, Repr, Inhabited

/-- Rust `char::is_whitespace`: membership in the Unicode `White_Space`
code-point list. -/
def isRustWhitespace (c : Char) : Bool :=
  c.val == 0x09 || c.val == 0x0A || c.val == 0x0B || c.val == 0x0C || c.val == 0x0D ||
  c.val == 0x20 || c.val == 0x85 || c.val == 0xA0 || c.val == 0x1680 ||
  (0x2000 ≤ c.val && c.val ≤ 0x200A) || c.val == 0x2028 || c.val == 0x2029 ||
  c.val == 0x202F || c.val == 0x205F || c.val == 0x3000

/-- Embeds the composite `s.trim().is_empty()` used by `UnitFile::validate`:
trimming removes leading and trailing whitespace, so the trimmed string is
empty exactly when every character of `s` is whitespace. -/
def trimEmpty (s : String) : Bool :=
  s.data.all isRustWhitespace

/-- Embeds `UnitFile::validate` from `src/unit/types.rs`.  The Rust pushes
messages into one `Vec<String>` in source order: rule 1 (empty name), rule 2
(empty todo path), rule 3 (section required by the unit type missing), then
rule 4 once per empty entry of `needs_before` chained with `needs_after`;
it returns `Ok(())` iff the vector stayed empty. -/
def UnitFile.validate (u : UnitFile) : Except (List String) Unit :=
  let errors :=
    (if trimEmpty u.unit.unit_name then ["Unit name cannot be empty"] else []) ++
    (if trimEmpty u.todo.path then ["Todo path cannot be empty"] else []) ++
    (match u.unit.unit_type with
      | .Service => if u.service.isNone then ["Service unit requires [service] section"] else []
      | .Target => if u.target.isNone then ["Target unit requires [target] section"] else []) ++
    ((u.dependency.needs_before ++ u.dependency.needs_after).filterMap
      (fun dep => if trimEmpty dep then some "Dependency name cannot be empty" else none))
  if errors.isEmpty then .ok () else .error errors

/-- Embeds `enum UnitLoadError` from `src/unit/errors.rs`, restricted to the
variant the resolver can construct.  The remaining variants
(`InvalidExtension`, `UnsupportedUnitType`, `ReadError`, `ParseError`,
`ValidationError`, `ReadDirError`, `DirEntryError`) wrap filesystem paths,
I/O errors and TOML decoder errors; they are produced only by the loader
(`src/parser/loader.rs`), which performs real I/O and is outside the
resolver core verified here, and `generate_unit_list` never creates them. -/
inductive UnitLoadError where
  | MissingDependency (declaring : String) (missing : String)
deriving DecidableEq, Repr

/-- Embeds `enum GraphBuildError` from `src/unit/errors.rs`. -/
inductive GraphBuildError where
  | LoadError (e : UnitLoadError)
  | DependencyCycle (name : String)
deriving DecidableEq, Repr

deriving instance DecidableEq for Except

/-- Lookup in the insertion-ordered association list modelling
`HashMap<String, NodeIndex>`: the latest insert for a key wins, exactly the
observable behaviour of `HashMap::insert` followed by `HashMap::get`. -/
def lookupLast : List (String × Nat) → String → Option Nat
  | [], _ => none
  | (k', v) :: rest, k =>
    match lookupLast rest k with
    | some w => some w
    | none => if k' = k then some v else none

/-- Embeds the first loop of `generate_unit_list`
(`src/parser/generator.rs` lines 14–17): unit `i` (counting from `b`)
receives graph node `i` carrying weight `i`, and `idx_map` maps its name to
that node.  Entries are kept in insertion order; `lookupLast` applies the
overwrite-on-duplicate semantics of `HashMap`. -/
def buildIdxMapAux : Nat → List UnitFile → List (String × Nat)
  | _, [] => []
  | b, u :: rest => (u.unit.unit_name, b) :: buildIdxMapAux (b + 1) rest

/-- The name-to-node index built by `generate_unit_list` for a unit slice. -/
def buildIdxMap (units : List UnitFile) : List (String × Nat) :=
  buildIdxMapAux 0 units

/-- The node weights of the graph built by `generate_unit_list`: `add_node i`
is called once per unit in order, so node `i` exists and carries weight `i`. -/
def graphWeights (units : List UnitFile) : List Nat :=
  List.range units.length

/-- Embeds the `needs_before` loop body of `generate_unit_list`
(`src/parser/generator.rs` lines 22–30): for each declared name resolve it
through `idx_map`, emitting edge `from → to`; the first unresolvable name
aborts with `MissingDependency(unit_name, dep)`. -/
def beforeEdges (idxMap : List (String × Nat)) (uname : String) (fr : Nat) :
    List String → Except GraphBuildError (List (Nat × Nat))
  | [] => .ok []
  | dep :: rest =>
    match lookupLast idxMap dep with
    | some t =>
      match beforeEdges idxMap uname fr rest with
      | .ok es => .ok ((fr, t) :: es)
      | .error e => .error e
    | none => .error (.LoadError (.MissingDependency uname dep))

/-- Embeds the `needs_after` loop body of `generate_unit_list`
(`src/parser/generator.rs` lines 31–40): same resolution, reversed edge
`to → from`. -/
def afterEdges (idxMap : List (String × Nat)) (uname : String) (fr : Nat) :
    List String → Except GraphBuildError (List (Nat × Nat))
  | [] => .ok []
  | dep :: rest =>
    match lookupLast idxMap dep with
    | some t =>
      match afterEdges idxMap uname fr rest with
      | .ok es => .ok ((t, fr) :: es)
      | .error e => .error e
    | none => .error (.LoadError (.MissingDependency uname dep))

/-- Embeds the second loop of `generate_unit_list`
(`src/parser/generator.rs` lines 19–41): per unit, look up its own node
(`idx_map.get(..).unwrap()`, whose panic is modelled by `none`), then append
its before-edges and after-edges.  Errors abort the whole pass. -/
def buildEdges (idxMap : List (String × Nat)) :
    List UnitFile → Option (Except GraphBuildError (List (Nat × Nat)))
  | [] => some (.ok [])
  | u :: rest =>
    match lookupLast idxMap u.unit.unit_name with
    | none => none
    | some fr =>
      match beforeEdges idxMap u.unit.unit_name fr u.dependency.needs_before with
      | .error e => some (.error e)
      | .ok es1 =>
        match afterEdges idxMap u.unit.unit_name fr u.dependency.needs_after with
        | .error e => some (.error e)
        | .ok es2 =>
          match buildEdges idxMap rest with
          | none => none
          | some (.error e) => some (.error e)
          | some (.ok es) => some (.ok (es1 ++ es2 ++ es))

/-- Bounded reachability along the edge list: `reachesIn es fuel a b` holds
iff there is a nonempty edge path from `a` to `b` of length at most `fuel`.
Executable companion of `PathW` below, used by the cycle reporter. -/
def reachesIn (es : List (Nat × Nat)) : Nat → Nat → Nat → Bool
  | 0, _, _ => false
  | fuel + 1, a, b =>
    es.any (fun e => e.1 == a && (e.2 == b || reachesIn es fuel e.2 b))

/-- A node of `rem` still has an incoming edge from inside `rem` (self-loops
count): such a node cannot yet be emitted by a topological sort. -/
def hasIncoming (es : List (Nat × Nat)) (rem : List Nat) (n : Nat) : Bool :=
  es.any (fun e => e.2 == n && rem.contains e.1)

/-- First remaining node with no incoming edge from the remaining set. -/
def findSource (es : List (Nat × Nat)) (rem : List Nat) : Option Nat :=
  rem.find? (fun n => !hasIncoming es rem n)

/-- When the sort is stuck, report a remaining node that provably lies on a
cycle (the first one whose bounded self-reachability check succeeds). -/
def findCycleNode (es : List (Nat × Nat)) (rem : List Nat) : Nat :=
  (rem.find? (fun n => reachesIn es rem.length n n)).getD 0

/-- Main loop of the topological sort: repeatedly emit a source node and
drop it from the remaining set; when no source exists the remaining nodes
contain a cycle and one of its nodes is reported.  The fuel argument (always
at least `rem.length` at call sites) only makes the recursion structural. -/
def topoAux (es : List (Nat × Nat)) : Nat → List Nat → Except Nat (List Nat)
  | 0, rem =>
    match rem with
    | [] => .ok []
    | _ => .error (findCycleNode es rem)
  | fuel + 1, rem =>
    match rem with
    | [] => .ok []
    | _ =>
      match findSource es rem with
      | some s =>
        match topoAux es fuel (rem.erase s) with
        | .ok order => .ok (s :: order)
        | .error w => .error w
      | none => .error (findCycleNode es rem)

/-- Models `petgraph::algo::toposort(&graph, None)` as used by
`generate_unit_list` (`src/parser/generator.rs` line 44): on a DAG it
returns the node ids in a topological order that is a permutation of the
node set; on a cyclic graph it returns `Err(Cycle(w))` with `w` a node lying
on a cycle.  petgraph's contract fixes exactly this; its DFS picks a
particular topological order and a particular on-cycle node, neither of
which any property here (or in the spec) depends on, so this model uses a
source-removal loop instead of reproducing the DFS. -/
def toposort (es : List (Nat × Nat)) (numNodes : Nat) : Except Nat (List Nat) :=
  topoAux es numNodes (List.range numNodes)

/-- Unit record stored at index `i` of the input slice (always called with
`i` in bounds; the default only totalises the function). -/
def unitAt (units : List UnitFile) (i : Nat) : UnitFile :=
  units.getD i default

/-- Embeds `generate_unit_list` from `src/parser/generator.rs` (also
exported unchanged as `generate`): build the index and the edge set, run the
topological sort, and map sorted node ids back through the node weights to
whole unit records (`units[graph[node_idx]].clone()`).  The outer `Option`
models the only possible panic, the `.unwrap()` on the own-name lookup
(`none` = panic). -/
def generate_unit_list (units : List UnitFile) :
    Option (Except GraphBuildError (List UnitFile)) :=
  let idxMap := buildIdxMap units
  let weights := graphWeights units
  match buildEdges idxMap units with
  | none => none
  | some (.error e) => some (.error e)
  | some (.ok es) =>
    match toposort es weights.length with
    | .error w =>
      some (.error (.DependencyCycle (unitAt units (weights.getD w 0)).unit.unit_name))
    | .ok sorted =>
      some (.ok (sorted.map (fun v => unitAt units (weights.getD v 0))))

/-- Nonempty edge paths of a given length whose intermediate nodes all lie
in `rem`.  `PathW es rem k a b` reads: `k` edges of `es` lead from `a` to
`b`, every node involved being a member of `rem`. -/
inductive PathW (es : List (Nat × Nat)) (rem : List Nat) : Nat → Nat → Nat → Prop
  | single {a b : Nat} : (a, b) ∈ es → a ∈ rem → b ∈ rem → PathW es rem 1 a b
  | cons {a b c : Nat} {k : Nat} :
      (a, b) ∈ es → a ∈ rem → PathW es rem k b c → PathW es rem (k + 1) a c

/-- Every dependency name declared by some unit of the collection names a
unit present in the collection. -/
def AllDepsResolvable (units : List UnitFile) : Prop :=
  ∀ u ∈ units, ∀ d ∈ u.dependency.needs_before ++ u.dependency.needs_after,
    ∃ v ∈ units, v.unit.unit_name = d

instance : DecidablePred AllDepsResolvable := fun units => by
  unfold AllDepsResolvable; infer_instance

/-- The edge list `generate_unit_list` builds for a collection whose
dependency names all resolve (junk value `[]` otherwise). -/
def resolvedEdges (units : List UnitFile) : List (Nat × Nat) :=
  match buildEdges (buildIdxMap units) units with
  | some (.ok es) => es
  | _ => []


/-- Concrete Service-typed test unit used by witnesses and counterexamples:
name, `needs_before` list, `needs_after` list. -/
def sampleUnit (nm : String) (bef aft : List String) : UnitFile :=
  { unit := { unit_name := nm, description := none, unit_type := .Service },
    todo := { path := "/bin/run", args := [], env := [] },
    service := some { command_on_restart := none, command_on_stop := none },
    target := none,
    dependency := { needs_before := bef, needs_after := aft } }

/-- A unit violating rules 1, 2 and 4 at once (blank name, blank path, one
blank dependency entry); used by the C7 witness. -/
def blankUnit : UnitFile :=
  { unit := { unit_name := " ", description := none, unit_type := .Service },
    todo := { path := "", args := [], env := [] },
    service := some { command_on_restart := none, command_on_stop := none },
    target := none,
    dependency := { needs_before := [""], needs_after := [] } }

/-- A Service-typed unit carrying both a service and a target section; used
by the C8 counterexample. -/
def bothSectionsUnit : UnitFile :=
  { unit := { unit_name := "dual", description := none, unit_type := .Service },
    todo := { path := "/bin/x", args := [], env := [] },
    service := some { command_on_restart := none, command_on_stop := none },
    target := some { is_runnable_once := false },
    dependency := { needs_before := [], needs_after := [] } }

/-- Reading `unitAt` agrees with list indexing when the index is in bounds. -/
theorem unitAt_lt {units : List UnitFile} {i : Nat} (h : i < units.length) :
    unitAt units i = units[i] := by
  simp [unitAt, List.getD_eq_getElem?_getD, List.getElem?_eq_getElem h]

/-- An in-bounds `unitAt` is a member of the list. -/
theorem unitAt_mem {units : List UnitFile} {i : Nat} (h : i < units.length) :
    unitAt units i ∈ units := by
  rw [unitAt_lt h]; exact List.getElem_mem h

/-- Indexing past the head steps into the tail. -/
theorem unitAt_cons_succ {u : UnitFile} {rest : List UnitFile} {n : Nat} :
    unitAt (u :: rest) (n + 1) = unitAt rest n := by
  simp [unitAt]

/-- Indexing a nonempty list at zero gives the head. -/
theorem unitAt_cons_zero {u : UnitFile} {rest : List UnitFile} :
    unitAt (u :: rest) 0 = u := rfl

/-- A successful lookup returns a recorded binding. -/
theorem lookupLast_mem {m : List (String × Nat)} {k : String} {v : Nat}
    (h : lookupLast m k = some v) : (k, v) ∈ m := by
  induction m with
  | nil => simp [lookupLast] at h
  | cons p rest ih =>
    obtain ⟨k', v'⟩ := p
    simp only [lookupLast] at h
    cases hr : lookupLast rest k with
    | some w => rw [hr] at h; cases h; exact List.mem_cons_of_mem _ (ih hr)
    | none =>
      rw [hr] at h
      by_cases hk : k' = k
      · simp [hk] at h; subst hk h; exact List.mem_cons_self _ _
      · simp [hk] at h

/-- The index lookup fails exactly when no unit of the slice bears the name. -/
theorem buildIdxMapAux_lookup_none {units : List UnitFile} {b : Nat} {k : String} :
    lookupLast (buildIdxMapAux b units) k = none ↔
      ∀ u ∈ units, u.unit.unit_name ≠ k := by
  induction units generalizing b with
  | nil => simp [buildIdxMapAux, lookupLast]
  | cons u rest ih =>
    simp only [buildIdxMapAux, lookupLast]
    cases hr : lookupLast (buildIdxMapAux (b + 1) rest) k with
    | some w =>
      simp only []
      constructor
      · intro h; cases h
      · intro h
        have : ∀ u' ∈ rest, u'.unit.unit_name ≠ k := fun u' hu' => h u' (List.mem_cons_of_mem _ hu')
        rw [← ih (b := b + 1)] at this
        rw [this] at hr; cases hr
    | none =>
      have hrest := (ih (b := b + 1)).mp hr
      by_cases hk : u.unit.unit_name = k
      · simp [hk]
      · simp only [hk, if_false]
        constructor
        · intro _ u' hu'
          rcases List.mem_cons.mp hu' with h | h
          · subst h; exact hk
          · exact hrest u' h
        · intro _; trivial

/-- A successful index lookup returns the node of the last unit bearing the
name: the looked-up value is `b + i` for the greatest in-bounds `i` whose
unit is named `k`.  This is the `HashMap` overwrite of
`src/parser/generator.rs` line 16 made explicit. -/
theorem buildIdxMapAux_lookup_some {units : List UnitFile} {b : Nat} {k : String} {v : Nat}
    (h : lookupLast (buildIdxMapAux b units) k = some v) :
    ∃ i, i < units.length ∧ v = b + i ∧ (unitAt units i).unit.unit_name = k ∧
      ∀ j, j < units.length → i < j → (unitAt units j).unit.unit_name ≠ k := by
  induction units generalizing b with
  | nil => simp [buildIdxMapAux, lookupLast] at h
  | cons u rest ih =>
    simp only [buildIdxMapAux, lookupLast] at h
    cases hr : lookupLast (buildIdxMapAux (b + 1) rest) k with
    | some w =>
      rw [hr] at h; cases h
      obtain ⟨i, hi, hv, hname, hmax⟩ := ih hr
      refine ⟨i + 1, by simpa using Nat.succ_lt_succ hi, by omega, ?_, ?_⟩
      · rw [unitAt_cons_succ]; exact hname
      · intro j hj hij
        cases j with
        | zero => omega
        | succ j' =>
          rw [unitAt_cons_succ]
          exact hmax j' (by simpa using Nat.lt_of_succ_lt_succ hj) (by omega)
    | none =>
      rw [hr] at h
      by_cases hk : u.unit.unit_name = k
      · simp only [hk, if_pos rfl] at h
        cases h
        refine ⟨0, by simp, by omega, by rw [unitAt_cons_zero]; exact hk, ?_⟩
        intro j hj hij
        cases j with
        | zero => omega
        | succ j' =>
          have hrest := buildIdxMapAux_lookup_none.mp hr
          have hmem : unitAt rest j' ∈ rest := unitAt_mem (by simpa using Nat.lt_of_succ_lt_succ hj)
          rw [unitAt_cons_succ]
          exact hrest _ hmem
      · simp [hk] at h

/-- Converse of `buildIdxMapAux_lookup_some`: the last in-bounds index whose
unit bears the name is what the lookup returns. -/
theorem buildIdxMapAux_lookup_last {units : List UnitFile} {b : Nat} {k : String} {i : Nat}
    (hi : i < units.length) (hname : (unitAt units i).unit.unit_name = k)
    (hmax : ∀ j, j < units.length → i < j → (unitAt units j).unit.unit_name ≠ k) :
    lookupLast (buildIdxMapAux b units) k = some (b + i) := by
  induction units generalizing b i with
  | nil => simp at hi
  | cons u rest ih =>
    simp only [buildIdxMapAux, lookupLast]
    cases i with
    | zero =>
      have hrest : ∀ u' ∈ rest, u'.unit.unit_name ≠ k := by
        intro u' hu'
        obtain ⟨j', hj', rfl⟩ := List.getElem_of_mem hu'
        have := hmax (j' + 1) (by simpa using Nat.succ_lt_succ hj') (Nat.succ_pos _)
        rw [unitAt_cons_succ, unitAt_lt hj'] at this
        exact this
      rw [buildIdxMapAux_lookup_none.mpr hrest]
      rw [unitAt_cons_zero] at hname
      simp [hname]
    | succ i' =>
      have hi' : i' < rest.length := by simpa using Nat.lt_of_succ_lt_succ hi
      have hname' : (unitAt rest i').unit.unit_name = k := by
        rw [unitAt_cons_succ] at hname; exact hname
      have hmax' : ∀ j, j < rest.length → i' < j → (unitAt rest j).unit.unit_name ≠ k := by
        intro j hj hij
        have := hmax (j + 1) (by simpa using Nat.succ_lt_succ hj) (by omega)
        rw [unitAt_cons_succ] at this
        exact this
      rw [ih hi' hname' hmax']
      show some (b + 1 + i') = some (b + (i' + 1))
      congr 1
      omega
      


/-- Looked-up node indices are in bounds of the unit slice. -/
theorem buildIdxMap_lookup_lt {units : List UnitFile} {k : String} {v : Nat}
    (h : lookupLast (buildIdxMap units) k = some v) : v < units.length := by
  obtain ⟨i, hi, hv, -, -⟩ := buildIdxMapAux_lookup_some (b := 0) h
  omega

/-- The unit stored at a looked-up node bears the looked-up name. -/
theorem buildIdxMap_lookup_name {units : List UnitFile} {k : String} {v : Nat}
    (h : lookupLast (buildIdxMap units) k = some v) :
    (unitAt units v).unit.unit_name = k := by
  obtain ⟨i, hi, hv, hname, -⟩ := buildIdxMapAux_lookup_some (b := 0) h
  have : v = i := by omega
  rw [this]
  exact hname

/-- Every unit of the collection can resolve its own name through the index
built by the first loop: the `.unwrap()` of `src/parser/generator.rs`
line 20 never observes `None`. -/
theorem lookup_own_some {units : List UnitFile} {u : UnitFile} (hu : u ∈ units) :
    ∃ v, lookupLast (buildIdxMap units) u.unit.unit_name = some v := by
  cases hl : lookupLast (buildIdxMap units) u.unit.unit_name with
  | some v => exact ⟨v, rfl⟩
  | none =>
    have := buildIdxMapAux_lookup_none.mp hl u hu
    exact absurd rfl this

/-- With pairwise-distinct names, equal stored units have equal indices. -/
theorem unitAt_name_inj {units : List UnitFile}
    (hnd : (units.map (fun u => u.unit.unit_name)).Nodup) {x y : Nat}
    (hx : x < units.length) (hy : y < units.length)
    (hname : (unitAt units x).unit.unit_name = (unitAt units y).unit.unit_name) :
    x = y := by
  by_contra hxy
  have := @List.Nodup.getElem_inj_iff _ _ hnd x (by simpa using hx) y (by simpa using hy)
  rw [List.getElem_map, List.getElem_map] at this
  rw [unitAt_lt hx, unitAt_lt hy] at hname
  exact hxy (this.mp hname)

/-- With pairwise-distinct unit names the index maps each unit's name to its
own position. -/
theorem buildIdxMap_lookup_nodup {units : List UnitFile}
    (hnd : (units.map (fun u => u.unit.unit_name)).Nodup) {i : Nat}
    (hi : i < units.length) :
    lookupLast (buildIdxMap units) (unitAt units i).unit.unit_name = some i := by
  have h := buildIdxMapAux_lookup_last (b := 0) hi rfl ?_
  · simpa using h
  · intro j hj hij hname
    have := unitAt_name_inj hnd hj hi hname
    omega

/-- A successful before-pass contains an edge for every resolvable
declaration. -/
theorem beforeEdges_ok_mem {idx : List (String × Nat)} {uname : String} {fr : Nat}
    {deps : List String} {es : List (Nat × Nat)}
    (h : beforeEdges idx uname fr deps = .ok es) :
    ∀ d ∈ deps, ∀ t, lookupLast idx d = some t → (fr, t) ∈ es := by
  induction deps generalizing es with
  | nil => intro d hd; cases hd
  | cons dep rest ih =>
    intro d hd t ht
    simp only [beforeEdges] at h
    cases hl : lookupLast idx dep with
    | none => rw [hl] at h; cases h
    | some t' =>
      rw [hl] at h
      cases hr : beforeEdges idx uname fr rest with
      | error e => rw [hr] at h; cases h
      | ok es' =>
        rw [hr] at h; cases h
        rcases List.mem_cons.mp hd with rfl | hd'
        · rw [hl] at ht; cases ht; exact List.mem_cons_self _ _
        · exact List.mem_cons_of_mem _ (ih hr d hd' t ht)

/-- Every edge of a successful before-pass starts at the declaring node and
targets a node the index assigned to one of the declared names. -/
theorem beforeEdges_ok_src {idx : List (String × Nat)} {uname : String} {fr : Nat}
    {deps : List String} {es : List (Nat × Nat)}
    (h : beforeEdges idx uname fr deps = .ok es) :
    ∀ e ∈ es, e.1 = fr ∧ ∃ d ∈ deps, lookupLast idx d = some e.2 := by
  induction deps generalizing es with
  | nil =>
    simp only [beforeEdges] at h
    cases h
    intro e he; cases he
  | cons dep rest ih =>
    intro e he
    simp only [beforeEdges] at h
    cases hl : lookupLast idx dep with
    | none => rw [hl] at h; cases h
    | some t' =>
      rw [hl] at h
      cases hr : beforeEdges idx uname fr rest with
      | error e' => rw [hr] at h; cases h
      | ok es' =>
        rw [hr] at h; cases h
        rcases List.mem_cons.mp he with rfl | he'
        · exact ⟨rfl, dep, List.mem_cons_self _ _, hl⟩
        · obtain ⟨h1, d, hd, h2⟩ := ih hr e he'
          exact ⟨h1, d, List.mem_cons_of_mem _ hd, h2⟩

/-- A successful before-pass resolved every declared name. -/
theorem beforeEdges_ok_resolves {idx : List (String × Nat)} {uname : String} {fr : Nat}
    {deps : List String} {es : List (Nat × Nat)}
    (h : beforeEdges idx uname fr deps = .ok es) :
    ∀ d ∈ deps, lookupLast idx d ≠ none := by
  induction deps generalizing es with
  | nil => intro d hd; cases hd
  | cons dep rest ih =>
    intro d hd
    simp only [beforeEdges] at h
    cases hl : lookupLast idx dep with
    | none => rw [hl] at h; cases h
    | some t' =>
      rw [hl] at h
      cases hr : beforeEdges idx uname fr rest with
      | error e' => rw [hr] at h; cases h
      | ok es' =>
        rcases List.mem_cons.mp hd with rfl | hd'
        · rw [hl]; intro hc; cases hc
        · exact ih hr d hd'

/-- A failing before-pass reports a declared name the index cannot resolve,
paired with the declaring unit's name. -/
theorem beforeEdges_error {idx : List (String × Nat)} {uname : String} {fr : Nat}
    {deps : List String} {e : GraphBuildError}
    (h : beforeEdges idx uname fr deps = .error e) :
    ∃ d ∈ deps, lookupLast idx d = none ∧
      e = .LoadError (.MissingDependency uname d) := by
  induction deps with
  | nil => simp only [beforeEdges] at h; cases h
  | cons dep rest ih =>
    simp only [beforeEdges] at h
    cases hl : lookupLast idx dep with
    | none =>
      rw [hl] at h; cases h
      exact ⟨dep, List.mem_cons_self _ _, hl, rfl⟩
    | some t' =>
      rw [hl] at h
      cases hr : beforeEdges idx uname fr rest with
      | error e' =>
        rw [hr] at h; cases h
        obtain ⟨d, hd, h1, h2⟩ := ih hr
        exact ⟨d, List.mem_cons_of_mem _ hd, h1, h2⟩
      | ok es' => rw [hr] at h; cases h

/-- A before-pass over fully-resolvable declarations succeeds. -/
theorem beforeEdges_ok_of_resolvable {idx : List (String × Nat)} (uname : String) (fr : Nat)
    {deps : List String} (h : ∀ d ∈ deps, ∃ t, lookupLast idx d = some t) :
    ∃ es, beforeEdges idx uname fr deps = .ok es := by
  induction deps with
  | nil => exact ⟨[], rfl⟩
  | cons dep rest ih =>
    obtain ⟨t, ht⟩ := h dep (List.mem_cons_self _ _)
    obtain ⟨es, hes⟩ := ih (fun d hd => h d (List.mem_cons_of_mem _ hd))
    refine ⟨(fr, t) :: es, ?_⟩
    simp only [beforeEdges, ht, hes]

/-- A successful after-pass contains a reversed edge for every resolvable
declaration. -/
theorem afterEdges_ok_mem {idx : List (String × Nat)} {uname : String} {fr : Nat}
    {deps : List String} {es : List (Nat × Nat)}
    (h : afterEdges idx uname fr deps = .ok es) :
    ∀ d ∈ deps, ∀ t, lookupLast idx d = some t → (t, fr) ∈ es := by
  induction deps generalizing es with
  | nil => intro d hd; cases hd
  | cons dep rest ih =>
    intro d hd t ht
    simp only [afterEdges] at h
    cases hl : lookupLast idx dep with
    | none => rw [hl] at h; cases h
    | some t' =>
      rw [hl] at h
      cases hr : afterEdges idx uname fr rest with
      | error e => rw [hr] at h; cases h
      | ok es' =>
        rw [hr] at h; cases h
        rcases List.mem_cons.mp hd with rfl | hd'
        · rw [hl] at ht; cases ht; exact List.mem_cons_self _ _
        · exact List.mem_cons_of_mem _ (ih hr d hd' t ht)

/-- Every edge of a successful after-pass ends at the declaring node and
starts at a node the index assigned to one of the declared names. -/
theorem afterEdges_ok_src {idx : List (String × Nat)} {uname : String} {fr : Nat}
    {deps : List String} {es : List (Nat × Nat)}
    (h : afterEdges idx uname fr deps = .ok es) :
    ∀ e ∈ es, e.2 = fr ∧ ∃ d ∈ deps, lookupLast idx d = some e.1 := by
  induction deps generalizing es with
  | nil =>
    simp only [afterEdges] at h
    cases h
    intro e he; cases he
  | cons dep rest ih =>
    intro e he
    simp only [afterEdges] at h
    cases hl : lookupLast idx dep with
    | none => rw [hl] at h; cases h
    | some t' =>
      rw [hl] at h
      cases hr : afterEdges idx uname fr rest with
      | error e' => rw [hr] at h; cases h
      | ok es' =>
        rw [hr] at h; cases h
        rcases List.mem_cons.mp he with rfl | he'
        · exact ⟨rfl, dep, List.mem_cons_self _ _, hl⟩
        · obtain ⟨h1, d, hd, h2⟩ := ih hr e he'
          exact ⟨h1, d, List.mem_cons_of_mem _ hd, h2⟩

/-- A successful after-pass resolved every declared name. -/
theorem afterEdges_ok_resolves {idx : List (String × Nat)} {uname : String} {fr : Nat}
    {deps : List String} {es : List (Nat × Nat)}
    (h : afterEdges idx uname fr deps = .ok es) :
    ∀ d ∈ deps, lookupLast idx d ≠ none := by
  induction deps generalizing es with
  | nil => intro d hd; cases hd
  | cons dep rest ih =>
    intro d hd
    simp only [afterEdges] at h
    cases hl : lookupLast idx dep with
    | none => rw [hl] at h; cases h
    | some t' =>
      rw [hl] at h
      cases hr : afterEdges idx uname fr rest with
      | error e' => rw [hr] at h; cases h
      | ok es' =>
        rcases List.mem_cons.mp hd with rfl | hd'
        · rw [hl]; intro hc; cases hc
        · exact ih hr d hd'

/-- A failing after-pass reports a declared name the index cannot resolve,
paired with the declaring unit's name. -/
theorem afterEdges_error {idx : List (String × Nat)} {uname : String} {fr : Nat}
    {deps : List String} {e : GraphBuildError}
    (h : afterEdges idx uname fr deps = .error e) :
    ∃ d ∈ deps, lookupLast idx d = none ∧
      e = .LoadError (.MissingDependency uname d) := by
  induction deps with
  | nil => simp only [afterEdges] at h; cases h
  | cons dep rest ih =>
    simp only [afterEdges] at h
    cases hl : lookupLast idx dep with
    | none =>
      rw [hl] at h; cases h
      exact ⟨dep, List.mem_cons_self _ _, hl, rfl⟩
    | some t' =>
      rw [hl] at h
      cases hr : afterEdges idx uname fr rest with
      | error e' =>
        rw [hr] at h; cases h
        obtain ⟨d, hd, h1, h2⟩ := ih hr
        exact ⟨d, List.mem_cons_of_mem _ hd, h1, h2⟩
      | ok es' => rw [hr] at h; cases h

/-- An after-pass over fully-resolvable declarations succeeds. -/
theorem afterEdges_ok_of_resolvable {idx : List (String × Nat)} (uname : String) (fr : Nat)
    {deps : List String} (h : ∀ d ∈ deps, ∃ t, lookupLast idx d = some t) :
    ∃ es, afterEdges idx uname fr deps = .ok es := by
  induction deps with
  | nil => exact ⟨[], rfl⟩
  | cons dep rest ih =>
    obtain ⟨t, ht⟩ := h dep (List.mem_cons_self _ _)
    obtain ⟨es, hes⟩ := ih (fun d hd => h d (List.mem_cons_of_mem _ hd))
    refine ⟨(t, fr) :: es, ?_⟩
    simp only [afterEdges, ht, hes]

/-- When every unit can resolve its own name, the edge-building pass never
panics (is never `none`). -/
theorem buildEdges_ne_none {idx : List (String × Nat)} {units : List UnitFile}
    (h : ∀ u ∈ units, lookupLast idx u.unit.unit_name ≠ none) :
    buildEdges idx units ≠ none := by
  induction units with
  | nil => simp [buildEdges]
  | cons u rest ih =>
    cases hl : lookupLast idx u.unit.unit_name with
    | none => exact absurd hl (h u (List.mem_cons_self _ _))
    | some fr =>
      have ih' := ih (fun u' hu' => h u' (List.mem_cons_of_mem _ hu'))
      cases hb : beforeEdges idx u.unit.unit_name fr u.dependency.needs_before with
      | error e => simp [buildEdges, hl, hb]
      | ok es1 =>
        cases ha : afterEdges idx u.unit.unit_name fr u.dependency.needs_after with
        | error e => simp [buildEdges, hl, hb, ha]
        | ok es2 =>
          cases hr : buildEdges idx rest with
          | none => exact absurd hr ih'
          | some r => cases r <;> simp [buildEdges, hl, hb, ha, hr]

/-- A successful edge pass contains, for every unit and every resolvable
declared name, the corresponding edge: `from → to` for `needs_before`
declarations and `to → from` for `needs_after` declarations. -/
theorem buildEdges_ok_mem {idx : List (String × Nat)} {units : List UnitFile}
    {es : List (Nat × Nat)} (h : buildEdges idx units = some (.ok es)) :
    ∀ u ∈ units, ∀ fr, lookupLast idx u.unit.unit_name = some fr →
      (∀ d ∈ u.dependency.needs_before, ∀ t, lookupLast idx d = some t → (fr, t) ∈ es) ∧
      (∀ d ∈ u.dependency.needs_after, ∀ t, lookupLast idx d = some t → (t, fr) ∈ es) := by
  induction units generalizing es with
  | nil => intro u hu; cases hu
  | cons u0 rest ih =>
    intro u hu fr hfr
    cases hl : lookupLast idx u0.unit.unit_name with
    | none => simp [buildEdges, hl] at h
    | some fr0 =>
      cases hb : beforeEdges idx u0.unit.unit_name fr0 u0.dependency.needs_before with
      | error e => simp [buildEdges, hl, hb] at h
      | ok es1 =>
        cases ha : afterEdges idx u0.unit.unit_name fr0 u0.dependency.needs_after with
        | error e => simp [buildEdges, hl, hb, ha] at h
        | ok es2 =>
          cases hr : buildEdges idx rest with
          | none => simp [buildEdges, hl, hb, ha, hr] at h
          | some r =>
            cases r with
            | error e => simp [buildEdges, hl, hb, ha, hr] at h
            | ok es' =>
              simp only [buildEdges, hl, hb, ha, hr, Option.some.injEq, Except.ok.injEq] at h
              subst h
              rcases List.mem_cons.mp hu with rfl | hu'
              · rw [hl] at hfr; cases hfr
                constructor
                · intro d hd t ht
                  have := beforeEdges_ok_mem hb d hd t ht
                  simp [List.mem_append, this]
                · intro d hd t ht
                  have := afterEdges_ok_mem ha d hd t ht
                  simp [List.mem_append, this]
              · have := ih hr u hu' fr hfr
                constructor
                · intro d hd t ht
                  have hm := this.1 d hd t ht
                  simp [List.mem_append, hm]
                · intro d hd t ht
                  have hm := this.2 d hd t ht
                  simp [List.mem_append, hm]

/-- A successful edge pass resolved every declared dependency name. -/
theorem buildEdges_ok_resolves {idx : List (String × Nat)} {units : List UnitFile}
    {es : List (Nat × Nat)} (h : buildEdges idx units = some (.ok es)) :
    ∀ u ∈ units, ∀ d ∈ u.dependency.needs_before ++ u.dependency.needs_after,
      lookupLast idx d ≠ none := by
  induction units generalizing es with
  | nil => intro u hu; cases hu
  | cons u0 rest ih =>
    intro u hu d hd
    cases hl : lookupLast idx u0.unit.unit_name with
    | none => simp [buildEdges, hl] at h
    | some fr0 =>
      cases hb : beforeEdges idx u0.unit.unit_name fr0 u0.dependency.needs_before with
      | error e => simp [buildEdges, hl, hb] at h
      | ok es1 =>
        cases ha : afterEdges idx u0.unit.unit_name fr0 u0.dependency.needs_after with
        | error e => simp [buildEdges, hl, hb, ha] at h
        | ok es2 =>
          cases hr : buildEdges idx rest with
          | none => simp [buildEdges, hl, hb, ha, hr] at h
          | some r =>
            cases r with
            | error e => simp [buildEdges, hl, hb, ha, hr] at h
            | ok es' =>
              rcases List.mem_cons.mp hu with rfl | hu'
              · rcases List.mem_append.mp hd with hd' | hd'
                · exact beforeEdges_ok_resolves hb d hd'
                · exact afterEdges_ok_resolves ha d hd'
              · exact ih hr u hu' d hd

/-- Every edge of a successful pass has both endpoints assigned by the
index. -/
theorem buildEdges_ok_endpoints {idx : List (String × Nat)} {units : List UnitFile}
    {es : List (Nat × Nat)} (h : buildEdges idx units = some (.ok es)) :
    ∀ e ∈ es, (∃ k, lookupLast idx k = some e.1) ∧ (∃ k, lookupLast idx k = some e.2) := by
  induction units generalizing es with
  | nil =>
    simp only [buildEdges, Option.some.injEq, Except.ok.injEq] at h
    subst h
    intro e he; cases he
  | cons u0 rest ih =>
    intro e he
    cases hl : lookupLast idx u0.unit.unit_name with
    | none => simp [buildEdges, hl] at h
    | some fr0 =>
      cases hb : beforeEdges idx u0.unit.unit_name fr0 u0.dependency.needs_before with
      | error e' => simp [buildEdges, hl, hb] at h
      | ok es1 =>
        cases ha : afterEdges idx u0.unit.unit_name fr0 u0.dependency.needs_after with
        | error e' => simp [buildEdges, hl, hb, ha] at h
        | ok es2 =>
          cases hr : buildEdges idx rest with
          | none => simp [buildEdges, hl, hb, ha, hr] at h
          | some r =>
            cases r with
            | error e' => simp [buildEdges, hl, hb, ha, hr] at h
            | ok es' =>
              simp only [buildEdges, hl, hb, ha, hr, Option.some.injEq, Except.ok.injEq] at h
              subst h
              rcases List.mem_append.mp he with h12 | h3
              · rcases List.mem_append.mp h12 with h1 | h2
                · obtain ⟨hsrc, d, hd, hdst⟩ := beforeEdges_ok_src hb e h1
                  exact ⟨⟨u0.unit.unit_name, by rw [hsrc]; exact hl⟩, ⟨d, hdst⟩⟩
                · obtain ⟨hdst, d, hd, hsrc⟩ := afterEdges_ok_src ha e h2
                  exact ⟨⟨d, hsrc⟩, ⟨u0.unit.unit_name, by rw [hdst]; exact hl⟩⟩
              · exact ih hr e h3

/-- A failing edge pass reports a `MissingDependency` naming a unit of the
collection together with one of its declared names that the index cannot
resolve. -/
theorem buildEdges_error {idx : List (String × Nat)} {units : List UnitFile}
    {e : GraphBuildError} (h : buildEdges idx units = some (.error e)) :
    ∃ u ∈ units, ∃ d ∈ u.dependency.needs_before ++ u.dependency.needs_after,
      lookupLast idx d = none ∧ e = .LoadError (.MissingDependency u.unit.unit_name d) := by
  induction units with
  | nil => simp [buildEdges] at h
  | cons u0 rest ih =>
    cases hl : lookupLast idx u0.unit.unit_name with
    | none => simp [buildEdges, hl] at h
    | some fr0 =>
      cases hb : beforeEdges idx u0.unit.unit_name fr0 u0.dependency.needs_before with
      | error e' =>
        simp only [buildEdges, hl, hb, Option.some.injEq, Except.error.injEq] at h
        subst h
        obtain ⟨d, hd, h1, h2⟩ := beforeEdges_error hb
        exact ⟨u0, List.mem_cons_self _ _, d, List.mem_append_left _ hd, h1, h2⟩
      | ok es1 =>
        cases ha : afterEdges idx u0.unit.unit_name fr0 u0.dependency.needs_after with
        | error e' =>
          simp only [buildEdges, hl, hb, ha, Option.some.injEq, Except.error.injEq] at h
          subst h
          obtain ⟨d, hd, h1, h2⟩ := afterEdges_error ha
          exact ⟨u0, List.mem_cons_self _ _, d, List.mem_append_right _ hd, h1, h2⟩
        | ok es2 =>
          cases hr : buildEdges idx rest with
          | none => simp [buildEdges, hl, hb, ha, hr] at h
          | some r =>
            cases r with
            | error e' =>
              simp only [buildEdges, hl, hb, ha, hr, Option.some.injEq, Except.error.injEq] at h
              subst h
              obtain ⟨u, hu, d, hd, h1, h2⟩ := ih hr
              exact ⟨u, List.mem_cons_of_mem _ hu, d, hd, h1, h2⟩
            | ok es' => simp [buildEdges, hl, hb, ha, hr] at h

/-- The edge pass over fully-resolvable declarations succeeds. -/
theorem buildEdges_ok_of_resolvable {idx : List (String × Nat)} {units : List UnitFile}
    (hown : ∀ u ∈ units, ∃ v, lookupLast idx u.unit.unit_name = some v)
    (hdep : ∀ u ∈ units, ∀ d ∈ u.dependency.needs_before ++ u.dependency.needs_after,
      ∃ t, lookupLast idx d = some t) :
    ∃ es, buildEdges idx units = some (.ok es) := by
  induction units with
  | nil => exact ⟨[], rfl⟩
  | cons u0 rest ih =>
    obtain ⟨fr0, hfr0⟩ := hown u0 (List.mem_cons_self _ _)
    obtain ⟨es1, hes1⟩ := beforeEdges_ok_of_resolvable u0.unit.unit_name fr0
      (fun d hd => hdep u0 (List.mem_cons_self _ _) d (List.mem_append_left _ hd))
    obtain ⟨es2, hes2⟩ := afterEdges_ok_of_resolvable u0.unit.unit_name fr0
      (fun d hd => hdep u0 (List.mem_cons_self _ _) d (List.mem_append_right _ hd))
    obtain ⟨es, hes⟩ := ih (fun u hu => hown u (List.mem_cons_of_mem _ hu))
      (fun u hu => hdep u (List.mem_cons_of_mem _ hu))
    refine ⟨es1 ++ es2 ++ es, ?_⟩
    simp only [buildEdges, hfr0, hes1, hes2, hes]

/-- A found source is a remaining node with no incoming edge from the
remaining set. -/
theorem findSource_some {es : List (Nat × Nat)} {rem : List Nat} {s : Nat}
    (h : findSource es rem = some s) :
    s ∈ rem ∧ ∀ e ∈ es, e.2 = s → e.1 ∉ rem := by
  refine ⟨List.mem_of_find?_eq_some h, ?_⟩
  have hp := List.find?_some h
  simp only [Bool.not_eq_true'] at hp
  intro e he h2 h1
  have : hasIncoming es rem s = true := by
    simp only [hasIncoming, List.any_eq_true]
    exact ⟨e, he, by simp [h2, h1]⟩
  rw [hp] at this
  cases this

/-- When no source exists, every remaining node has an incoming edge from
the remaining set. -/
theorem findSource_none {es : List (Nat × Nat)} {rem : List Nat}
    (h : findSource es rem = none) :
    ∀ n ∈ rem, ∃ e ∈ es, e.2 = n ∧ e.1 ∈ rem := by
  intro n hn
  have := List.find?_eq_none.mp h n hn
  simp only [Bool.not_eq_true', Bool.not_eq_false] at this
  simp only [hasIncoming, List.any_eq_true, Bool.and_eq_true, beq_iff_eq] at this
  obtain ⟨e, he, h2, h1⟩ := this
  exact ⟨e, he, h2, by simpa using h1⟩

/-- Paths are preserved under enlarging the allowed node set. -/
theorem PathW.mono {es : List (Nat × Nat)} {rem rem' : List Nat} {k a b : Nat}
    (hsub : rem ⊆ rem') (h : PathW es rem k a b) : PathW es rem' k a b := by
  induction h with
  | single he ha hb => exact .single he (hsub ha) (hsub hb)
  | cons he ha _ ih => exact .cons he (hsub ha) ih

/-- Both endpoints of a path lie in the allowed node set. -/
theorem PathW.mem {es : List (Nat × Nat)} {rem : List Nat} {k a b : Nat}
    (h : PathW es rem k a b) : a ∈ rem ∧ b ∈ rem := by
  induction h with
  | single _ ha hb => exact ⟨ha, hb⟩
  | cons _ ha _ ih => exact ⟨ha, ih.2⟩

/-- A successful bounded-reachability check yields a path, inside any node
set containing all edge endpoints. -/
theorem reachesIn_sound {es : List (Nat × Nat)} {R : List Nat}
    (hR : ∀ e ∈ es, e.1 ∈ R ∧ e.2 ∈ R) :
    ∀ {f a b : Nat}, reachesIn es f a b = true → ∃ k, PathW es R k a b := by
  intro f
  induction f with
  | zero => intro a b h; simp [reachesIn] at h
  | succ f ih =>
    intro a b h
    simp only [reachesIn, List.any_eq_true, Bool.and_eq_true, Bool.or_eq_true, beq_iff_eq] at h
    obtain ⟨e, he, h1, h2⟩ := h
    have hedge : (a, e.2) ∈ es := by
      have : e = (e.1, e.2) := rfl
      rw [this, h1] at he
      exact he
    rcases h2 with h2 | h2
    · exact ⟨1, .single (h2 ▸ hedge) (h1 ▸ (hR e he).1) (h2 ▸ (hR e he).2)⟩
    · obtain ⟨k, hp⟩ := ih h2
      exact ⟨k + 1, .cons hedge (h1 ▸ (hR e he).1) hp⟩

/-- Bounded reachability finds every path whose length fits in the bound. -/
theorem reachesIn_complete {es : List (Nat × Nat)} {rem : List Nat} {k a b : Nat}
    (h : PathW es rem k a b) : ∀ {f : Nat}, k ≤ f → reachesIn es f a b = true := by
  induction h with
  | @single a b he _ _ =>
    intro f hf
    cases f with
    | zero => omega
    | succ f' =>
      simp only [reachesIn, List.any_eq_true]
      exact ⟨(a, b), he, by simp⟩
  | @cons a b c k he _ _ ih =>
    intro f hf
    cases f with
    | zero => omega
    | succ f' =>
      simp only [reachesIn, List.any_eq_true]
      refine ⟨(a, b), he, ?_⟩
      simp only [beq_self_eq_true, Bool.true_and, Bool.or_eq_true]
      exact Or.inr (ih (by omega))

/-- Walk backwards along incoming edges, collecting visited nodes; since the
remaining set is finite, the walk must close a cycle.  `seen` holds the
already-visited nodes, each reachable from the current node `n`. -/
theorem cycle_of_walk {es : List (Nat × Nat)} {rem : List Nat}
    (hpred : ∀ m ∈ rem, ∃ e ∈ es, e.2 = m ∧ e.1 ∈ rem) :
    ∀ (fuel : Nat) (seen : List Nat) (n : Nat),
      n ∈ rem → n ∉ seen → seen.Nodup → (∀ s ∈ seen, s ∈ rem) →
      (∀ s ∈ seen, ∃ k, 1 ≤ k ∧ k ≤ seen.length ∧ PathW es rem k n s) →
      rem.length ≤ fuel + seen.length →
      ∃ w ∈ rem, ∃ k, 1 ≤ k ∧ k ≤ rem.length ∧ PathW es rem k w w := by
  intro fuel
  induction fuel with
  | zero =>
    intro seen n hn hns hnd hsub _ hlen
    exfalso
    have hnd' : (n :: seen).Nodup := List.nodup_cons.mpr ⟨hns, hnd⟩
    have hsub' : (n :: seen) ⊆ rem := by
      intro x hx
      rcases List.mem_cons.mp hx with rfl | hx'
      · exact hn
      · exact hsub x hx'
    have := (hnd'.subperm hsub').length_le
    simp at this
    omega
  | succ fuel ih =>
    intro seen n hn hns hnd hsub hpaths hlen
    obtain ⟨e, he, h2, h1⟩ := hpred n hn
    have hedge : (e.1, n) ∈ es := by rw [← h2]; exact he
    by_cases hpn : e.1 = n
    · rw [hpn] at hedge h1
      exact ⟨n, hn, 1, Nat.le_refl _, List.length_pos_of_mem hn, .single hedge hn hn⟩
    by_cases hps : e.1 ∈ seen
    · obtain ⟨k, hk1, hk2, hpath⟩ := hpaths e.1 hps
      have hlen1 : seen.length + 1 ≤ rem.length := by
        have hnd' : (n :: seen).Nodup := List.nodup_cons.mpr ⟨hns, hnd⟩
        have hsub' : (n :: seen) ⊆ rem := by
          intro x hx
          rcases List.mem_cons.mp hx with rfl | hx'
          · exact hn
          · exact hsub x hx'
        have := (hnd'.subperm hsub').length_le
        simpa using this
      exact ⟨e.1, h1, k + 1, by omega, by omega, .cons hedge h1 hpath⟩
    · refine ih (n :: seen) e.1 h1 ?_ (List.nodup_cons.mpr ⟨hns, hnd⟩) ?_ ?_ (by simp; omega)
      · simp only [List.mem_cons, not_or]
        exact ⟨hpn, hps⟩
      · intro x hx
        rcases List.mem_cons.mp hx with rfl | hx'
        · exact hn
        · exact hsub x hx'
      · intro s hs
        rcases List.mem_cons.mp hs with rfl | hs'
        · exact ⟨1, Nat.le_refl _, by simp, .single hedge h1 hn⟩
        · obtain ⟨k, hk1, hk2, hpath⟩ := hpaths s hs'
          exact ⟨k + 1, by omega, by simp; omega, .cons hedge h1 hpath⟩

/-- A nonempty node set in which every node has an incoming edge from the
set contains a cycle of length at most the size of the set. -/
theorem cycle_of_all_incoming {es : List (Nat × Nat)} {rem : List Nat}
    (hne : rem ≠ []) (hpred : ∀ m ∈ rem, ∃ e ∈ es, e.2 = m ∧ e.1 ∈ rem) :
    ∃ w ∈ rem, ∃ k, 1 ≤ k ∧ k ≤ rem.length ∧ PathW es rem k w w := by
  cases rem with
  | nil => exact absurd rfl hne
  | cons x xs =>
    exact cycle_of_walk hpred (x :: xs).length [] x (List.mem_cons_self _ _)
      (List.not_mem_nil x) List.nodup_nil (by intro s hs; cases hs)
      (by intro s hs; cases hs) (by simp)

/-- When the sort is stuck on a nonempty remaining set, `findCycleNode`
returns a remaining node whose bounded self-reachability check holds. -/
theorem findCycleNode_spec {es : List (Nat × Nat)} {rem : List Nat}
    (hne : rem ≠ []) (hstuck : findSource es rem = none) :
    ∃ w ∈ rem, findCycleNode es rem = w ∧ reachesIn es rem.length w w = true := by
  obtain ⟨c, hc, k, hk1, hk2, hpath⟩ := cycle_of_all_incoming hne (findSource_none hstuck)
  have hcr : reachesIn es rem.length c c = true := reachesIn_complete hpath hk2
  cases hf : rem.find? (fun n => reachesIn es rem.length n n) with
  | none =>
    exfalso
    have := List.find?_eq_none.mp hf c hc
    rw [hcr] at this
    exact this rfl
  | some w =>
    refine ⟨w, List.mem_of_find?_eq_some hf, ?_, by simpa using List.find?_some hf⟩
    simp [findCycleNode, hf]

/-- Sorting an empty remaining set succeeds with the empty order. -/
theorem topoAux_nil {es : List (Nat × Nat)} {fuel : Nat} :
    topoAux es fuel [] = .ok [] := by
  cases fuel <;> rfl

/-- A successful sort emits each remaining node exactly once. -/
theorem topoAux_ok_perm {es : List (Nat × Nat)} :
    ∀ {fuel : Nat} {rem order : List Nat}, rem.length ≤ fuel →
      topoAux es fuel rem = .ok order → order.Perm rem := by
  intro fuel
  induction fuel with
  | zero =>
    intro rem order hlen h
    have : rem = [] := List.eq_nil_of_length_eq_zero (by omega)
    subst this
    rw [topoAux_nil] at h
    cases h
    exact List.Perm.refl _
  | succ fuel ih =>
    intro rem order hlen h
    cases rem with
    | nil =>
      rw [topoAux_nil] at h
      cases h
      exact List.Perm.refl _
    | cons x xs =>
      cases hs : findSource es (x :: xs) with
      | none => simp [topoAux, hs] at h
      | some s =>
        cases hrec : topoAux es fuel ((x :: xs).erase s) with
        | error w => simp [topoAux, hs, hrec] at h
        | ok order' =>
          simp only [topoAux, hs, hrec, Except.ok.injEq] at h
          subst h
          have hmem : s ∈ x :: xs := (findSource_some hs).1
          have hlen' : ((x :: xs).erase s).length ≤ fuel := by
            rw [List.length_erase_of_mem hmem]
            simp at hlen ⊢
            omega
          have hperm := ih hlen' hrec
          exact (hperm.cons s).trans (List.perm_cons_erase hmem).symm

/-- A failing sort got stuck on a nonempty sourceless subset of the
remaining nodes and reported `findCycleNode` of that subset. -/
theorem topoAux_error {es : List (Nat × Nat)} :
    ∀ {fuel : Nat} {rem : List Nat} {w : Nat}, rem.length ≤ fuel →
      topoAux es fuel rem = .error w →
      ∃ rem', rem' ⊆ rem ∧ rem' ≠ [] ∧ findSource es rem' = none ∧
        w = findCycleNode es rem' := by
  intro fuel
  induction fuel with
  | zero =>
    intro rem w hlen h
    have : rem = [] := List.eq_nil_of_length_eq_zero (by omega)
    subst this
    rw [topoAux_nil] at h
    cases h
  | succ fuel ih =>
    intro rem w hlen h
    cases rem with
    | nil => rw [topoAux_nil] at h; cases h
    | cons x xs =>
      cases hs : findSource es (x :: xs) with
      | none =>
        simp only [topoAux, hs, Except.error.injEq] at h
        exact ⟨x :: xs, fun a ha => ha, List.cons_ne_nil _ _, hs, h.symm⟩
      | some s =>
        cases hrec : topoAux es fuel ((x :: xs).erase s) with
        | ok order' => simp [topoAux, hs, hrec] at h
        | error w' =>
          simp only [topoAux, hs, hrec, Except.error.injEq] at h
          subst h
          have hmem : s ∈ x :: xs := (findSource_some hs).1
          have hlen' : ((x :: xs).erase s).length ≤ fuel := by
            rw [List.length_erase_of_mem hmem]
            simp at hlen ⊢
            omega
          obtain ⟨rem', h1, h2, h3, h4⟩ := ih hlen' hrec
          exact ⟨rem', h1.trans (List.erase_subset _ _), h2, h3, h4⟩

/-- In a successful sort, every edge between remaining nodes goes from an
earlier to a later position of the output order. -/
theorem topoAux_ok_indexOf {es : List (Nat × Nat)} :
    ∀ {fuel : Nat} {rem order : List Nat}, rem.length ≤ fuel → rem.Nodup →
      topoAux es fuel rem = .ok order →
      ∀ a b, (a, b) ∈ es → a ∈ rem → b ∈ rem →
        order.indexOf a < order.indexOf b := by
  intro fuel
  induction fuel with
  | zero =>
    intro rem order hlen _ _ a b _ ha _
    have : rem = [] := List.eq_nil_of_length_eq_zero (by omega)
    subst this
    cases ha
  | succ fuel ih =>
    intro rem order hlen hnd h a b hab ha hb
    cases rem with
    | nil => cases ha
    | cons x xs =>
      cases hs : findSource es (x :: xs) with
      | none => simp [topoAux, hs] at h
      | some s =>
        cases hrec : topoAux es fuel ((x :: xs).erase s) with
        | error w => simp [topoAux, hs, hrec] at h
        | ok order' =>
          simp only [topoAux, hs, hrec, Except.ok.injEq] at h
          subst h
          obtain ⟨hmem, hnoinc⟩ := findSource_some hs
          have hbs : b ≠ s := by
            intro hbs
            exact hnoinc (a, b) hab hbs ha
          have hb' : b ∈ (x :: xs).erase s := (List.mem_erase_of_ne hbs).mpr hb
          have hlen' : ((x :: xs).erase s).length ≤ fuel := by
            rw [List.length_erase_of_mem hmem]
            simp at hlen ⊢
            omega
          by_cases has : a = s
          · subst has
            rw [List.indexOf_cons_self]
            rw [List.indexOf_cons_ne _ (Ne.symm hbs)]
            exact Nat.succ_pos _
          · have ha' : a ∈ (x :: xs).erase s := (List.mem_erase_of_ne has).mpr ha
            have := ih hlen' (hnd.erase s) hrec a b hab ha' hb'
            rw [List.indexOf_cons_ne _ (Ne.symm has), List.indexOf_cons_ne _ (Ne.symm hbs)]
            omega

/-- Along any path between remaining nodes, positions in a successful order
strictly increase; in particular a successful order admits no cycle. -/
theorem topoAux_ok_pathW {es : List (Nat × Nat)} {fuel : Nat} {rem order : List Nat}
    (hlen : rem.length ≤ fuel) (hnd : rem.Nodup)
    (h : topoAux es fuel rem = .ok order) {k a b : Nat}
    (hp : PathW es rem k a b) : order.indexOf a < order.indexOf b := by
  induction hp with
  | single he ha hb => exact topoAux_ok_indexOf hlen hnd h _ _ he ha hb
  | cons he ha hp' ih =>
    have hb' := hp'.mem.1
    exact Nat.lt_trans (topoAux_ok_indexOf hlen hnd h _ _ he ha hb') ih

/-- An acyclic remaining set (no short cycle inside it) sorts successfully. -/
theorem topoAux_ok_of_acyclic {es : List (Nat × Nat)} :
    ∀ {fuel : Nat} {rem : List Nat}, rem.length ≤ fuel →
      (∀ v k, k ≤ rem.length → ¬ PathW es rem k v v) →
      ∃ order, topoAux es fuel rem = .ok order := by
  intro fuel
  induction fuel with
  | zero =>
    intro rem hlen _
    have : rem = [] := List.eq_nil_of_length_eq_zero (by omega)
    subst this
    exact ⟨[], topoAux_nil⟩
  | succ fuel ih =>
    intro rem hlen hacyc
    cases rem with
    | nil => exact ⟨[], topoAux_nil⟩
    | cons x xs =>
      cases hs : findSource es (x :: xs) with
      | none =>
        exfalso
        obtain ⟨w, hw, k, hk1, hk2, hpath⟩ :=
          cycle_of_all_incoming (List.cons_ne_nil _ _) (findSource_none hs)
        exact hacyc w k hk2 hpath
      | some s =>
        have hmem : s ∈ x :: xs := (findSource_some hs).1
        have hlen' : ((x :: xs).erase s).length ≤ fuel := by
          rw [List.length_erase_of_mem hmem]
          simp at hlen ⊢
          omega
        have hacyc' : ∀ v k, k ≤ ((x :: xs).erase s).length →
            ¬ PathW es ((x :: xs).erase s) k v v := by
          intro v k hk hpath
          have hsub : (x :: xs).erase s ⊆ x :: xs := List.erase_subset _ _
          refine hacyc v k ?_ (hpath.mono hsub)
          calc k ≤ ((x :: xs).erase s).length := hk
            _ ≤ (x :: xs).length := (List.erase_sublist _ _).length_le
        obtain ⟨order', horder'⟩ := ih hlen' hacyc'
        exact ⟨s :: order', by simp [topoAux, hs, horder']⟩

/-- A name borne by some unit always resolves through the index. -/
theorem lookup_name_some {units : List UnitFile} {d : String}
    (h : ∃ v ∈ units, v.unit.unit_name = d) :
    ∃ t, lookupLast (buildIdxMap units) d = some t := by
  obtain ⟨v, hv, hname⟩ := h
  cases hl : lookupLast (buildIdxMap units) d with
  | some t => exact ⟨t, rfl⟩
  | none => exact absurd hname (buildIdxMapAux_lookup_none.mp hl v hv)

/-- Under full resolvability the edge pass succeeds and returns exactly
`resolvedEdges`. -/
theorem resolvedEdges_ok {units : List UnitFile} (hres : AllDepsResolvable units) :
    buildEdges (buildIdxMap units) units = some (.ok (resolvedEdges units)) := by
  obtain ⟨es, hes⟩ := buildEdges_ok_of_resolvable
    (fun u hu => lookup_own_some hu)
    (fun u hu d hd => lookup_name_some (hres u hu d hd))
  rw [hes]
  simp [resolvedEdges, hes]

/-- All edges of a successful pass connect in-bounds node ids. -/
theorem edges_lt {units : List UnitFile} {es : List (Nat × Nat)}
    (h : buildEdges (buildIdxMap units) units = some (.ok es)) :
    ∀ e ∈ es, e.1 < units.length ∧ e.2 < units.length := by
  intro e he
  obtain ⟨⟨k1, hk1⟩, ⟨k2, hk2⟩⟩ := buildEdges_ok_endpoints h e he
  exact ⟨buildIdxMap_lookup_lt hk1, buildIdxMap_lookup_lt hk2⟩

/-- Reading the weight list at an in-bounds node returns the node itself. -/
theorem graphWeights_getD {units : List UnitFile} {v : Nat} (h : v < units.length) :
    (graphWeights units).getD v 0 = v := by
  simp [graphWeights, List.getD_eq_getElem?_getD, List.getElem?_range h]

/-- Mapping every node id back through the weights reproduces the input
slice. -/
theorem map_unitAt_range (units : List UnitFile) :
    (List.range units.length).map (fun v => unitAt units v) = units := by
  apply List.ext_getElem
  · simp
  · intro i h1 h2
    simp only [List.getElem_map, List.getElem_range]
    exact unitAt_lt h2

/-- The resolver forwards an edge-pass failure unchanged. -/
theorem generate_eq_of_err {units : List UnitFile} {e : GraphBuildError}
    (h : buildEdges (buildIdxMap units) units = some (.error e)) :
    generate_unit_list units = some (.error e) := by
  simp [generate_unit_list, h]

/-- The resolver panics exactly when the edge pass does. -/
theorem generate_some_of_edges {units : List UnitFile}
    {r : Except GraphBuildError (List (Nat × Nat))}
    (h : buildEdges (buildIdxMap units) units = some r) :
    ∃ r', generate_unit_list units = some r' := by
  cases r with
  | error e => exact ⟨_, generate_eq_of_err h⟩
  | ok es =>
    simp only [generate_unit_list, h]
    cases ht : toposort es (graphWeights units).length with
    | error w => exact ⟨_, rfl⟩
    | ok sorted => exact ⟨_, rfl⟩

/-- On a successful sort the resolver returns the sorted node ids mapped
back to unit records. -/
theorem generate_eq_of_ok {units : List UnitFile} {es : List (Nat × Nat)}
    {sorted : List Nat}
    (h : buildEdges (buildIdxMap units) units = some (.ok es))
    (ht : toposort es units.length = .ok sorted)
    (hb : ∀ v ∈ sorted, v < units.length) :
    generate_unit_list units = some (.ok (sorted.map (fun v => unitAt units v))) := by
  have hlen : (graphWeights units).length = units.length := by simp [graphWeights]
  simp only [generate_unit_list, h, hlen, ht]
  congr 1
  congr 1
  apply List.map_congr_left
  intro v hv
  rw [graphWeights_getD (hb v hv)]

/-- On a failing sort the resolver reports the cycle node's unit name. -/
theorem generate_eq_of_cycle {units : List UnitFile} {es : List (Nat × Nat)} {w : Nat}
    (h : buildEdges (buildIdxMap units) units = some (.ok es))
    (ht : toposort es units.length = .error w) (hw : w < units.length) :
    generate_unit_list units =
      some (.error (.DependencyCycle (unitAt units w).unit.unit_name)) := by
  have hlen : (graphWeights units).length = units.length := by simp [graphWeights]
  simp only [generate_unit_list, h, hlen, ht]
  rw [graphWeights_getD hw]

/-- Positions under an injective-on-the-list map agree with positions in the
underlying list. -/
theorem indexOf_map_unitAt {f : Nat → UnitFile} {l : List Nat} {a : Nat}
    (hinj : ∀ x ∈ l, f x = f a → x = a) :
    (l.map f).indexOf (f a) = l.indexOf a := by
  induction l with
  | nil => rfl
  | cons x xs ih =>
    by_cases hxa : x = a
    · subst hxa
      rw [List.map_cons, List.indexOf_cons_self, List.indexOf_cons_self]
    · have hfx : f x ≠ f a := fun hfeq => hxa (hinj x (List.mem_cons_self _ _) hfeq)
      rw [List.map_cons, List.indexOf_cons_ne _ hfx, List.indexOf_cons_ne _ hxa,
        ih (fun y hy => hinj y (List.mem_cons_of_mem _ hy))]

/-- With a cyclic edge set the resolver reports a `DependencyCycle` whose
carried name belongs to an in-bounds unit lying on a cycle. -/
theorem generate_err_of_cycle {units : List UnitFile} {es : List (Nat × Nat)}
    (h : buildEdges (buildIdxMap units) units = some (.ok es))
    (hcyc : ∃ v k, PathW es (List.range units.length) k v v) :
    ∃ w, w < units.length ∧
      generate_unit_list units =
        some (.error (.DependencyCycle (unitAt units w).unit.unit_name)) ∧
      ∃ k, PathW es (List.range units.length) k w w := by
  obtain ⟨v, k, hpath⟩ := hcyc
  have hlenr : (List.range units.length).length ≤ units.length := by simp
  cases ht : toposort es units.length with
  | ok sorted =>
    exfalso
    have ht' : topoAux es units.length (List.range units.length) = .ok sorted := by
      simpa [toposort] using ht
    have := topoAux_ok_pathW hlenr (List.nodup_range _) ht' hpath
    omega
  | error w =>
    have ht' : topoAux es units.length (List.range units.length) = .error w := by
      simpa [toposort] using ht
    obtain ⟨rem', hsub, hne, hstuck, hwe⟩ := topoAux_error hlenr ht'
    obtain ⟨w', hw'mem, hfcn, hreach⟩ := findCycleNode_spec hne hstuck
    have hww' : w = w' := by rw [hwe, hfcn]
    subst hww'
    have hR : ∀ e ∈ es, e.1 ∈ List.range units.length ∧ e.2 ∈ List.range units.length := by
      intro e he
      obtain ⟨h1, h2⟩ := edges_lt h e he
      exact ⟨List.mem_range.mpr h1, List.mem_range.mpr h2⟩
    obtain ⟨k', hp⟩ := reachesIn_sound hR hreach
    have hwlt : w < units.length := List.mem_range.mp (hsub hw'mem)
    exact ⟨w, hwlt, generate_eq_of_cycle h ht hwlt, k', hp⟩

/-- C1: for every acyclic input collection of units whose dependency entries
all name units present in the collection, `generate_unit_list` returns `Ok`
with a sequence that is a permutation of the input units (same multiset of
records, each forwarded unchanged), in which every unit declaring
`needs_before = [.., D, ..]` appears strictly before the unit named `D` and
every unit declaring `needs_after = [.., D, ..]` appears strictly after the
unit named `D`.  (Unit names are pairwise distinct, the standing data-model
invariant of the spec, which makes "the unit named D" well defined.) -/
theorem resolve_acyclic_perm_ordered (units : List UnitFile)
    (hnodup : (units.map (fun u => u.unit.unit_name)).Nodup)
    (hres : AllDepsResolvable units)
    (hacyc : ∀ v k, k ≤ units.length →
      ¬ PathW (resolvedEdges units) (List.range units.length) k v v) :
    ∃ ordered, generate_unit_list units = some (.ok ordered) ∧
      ordered.Perm units ∧
      (∀ u ∈ units, ∀ d ∈ u.dependency.needs_before, ∀ v ∈ units,
        v.unit.unit_name = d → ordered.indexOf u < ordered.indexOf v) ∧
      (∀ u ∈ units, ∀ d ∈ u.dependency.needs_after, ∀ v ∈ units,
        v.unit.unit_name = d → ordered.indexOf v < ordered.indexOf u) := by
  have hedges := resolvedEdges_ok hres
  have hlenr : (List.range units.length).length ≤ units.length := by simp
  have hacyc' : ∀ v k, k ≤ (List.range units.length).length →
      ¬ PathW (resolvedEdges units) (List.range units.length) k v v := by
    simpa using hacyc
  obtain ⟨sorted, hsorted⟩ := topoAux_ok_of_acyclic hlenr hacyc'
  have ht : toposort (resolvedEdges units) units.length = .ok sorted := by
    simpa [toposort] using hsorted
  have hperm : sorted.Perm (List.range units.length) := topoAux_ok_perm hlenr hsorted
  have hb : ∀ v ∈ sorted, v < units.length := fun v hv =>
    List.mem_range.mp (hperm.mem_iff.mp hv)
  have hgen := generate_eq_of_ok hedges ht hb
  have hinj : ∀ a, a < units.length →
      ∀ x ∈ sorted, unitAt units x = unitAt units a → x = a := by
    intro a ha x hx heq
    exact unitAt_name_inj hnodup (hb x hx) ha (by rw [heq])
  refine ⟨_, hgen, ?_, ?_, ?_⟩
  · have h1 : (sorted.map (fun v => unitAt units v)).Perm
        ((List.range units.length).map (fun v => unitAt units v)) := hperm.map _
    rw [map_unitAt_range units] at h1
    exact h1
  · intro u hu d hd v hv hname
    obtain ⟨iu, hiu, rfl⟩ := List.getElem_of_mem hu
    obtain ⟨iv, hiv, rfl⟩ := List.getElem_of_mem hv
    have hlu : lookupLast (buildIdxMap units) (units[iu]).unit.unit_name = some iu := by
      have := buildIdxMap_lookup_nodup hnodup hiu
      rwa [unitAt_lt hiu] at this
    have hlv : lookupLast (buildIdxMap units) d = some iv := by
      have := buildIdxMap_lookup_nodup hnodup hiv
      rw [unitAt_lt hiv, hname] at this
      exact this
    have hedge : (iu, iv) ∈ resolvedEdges units :=
      (buildEdges_ok_mem hedges _ hu iu hlu).1 d hd iv hlv
    have hidx := topoAux_ok_indexOf hlenr (List.nodup_range _) hsorted iu iv hedge
      (List.mem_range.mpr hiu) (List.mem_range.mpr hiv)
    rw [← unitAt_lt hiu, ← unitAt_lt hiv,
      indexOf_map_unitAt (hinj iu hiu), indexOf_map_unitAt (hinj iv hiv)]
    exact hidx
  · intro u hu d hd v hv hname
    obtain ⟨iu, hiu, rfl⟩ := List.getElem_of_mem hu
    obtain ⟨iv, hiv, rfl⟩ := List.getElem_of_mem hv
    have hlu : lookupLast (buildIdxMap units) (units[iu]).unit.unit_name = some iu := by
      have := buildIdxMap_lookup_nodup hnodup hiu
      rwa [unitAt_lt hiu] at this
    have hlv : lookupLast (buildIdxMap units) d = some iv := by
      have := buildIdxMap_lookup_nodup hnodup hiv
      rw [unitAt_lt hiv, hname] at this
      exact this
    have hedge : (iv, iu) ∈ resolvedEdges units :=
      (buildEdges_ok_mem hedges _ hu iu hlu).2 d hd iv hlv
    have hidx := topoAux_ok_indexOf hlenr (List.nodup_range _) hsorted iv iu hedge
      (List.mem_range.mpr hiv) (List.mem_range.mpr hiu)
    rw [← unitAt_lt hiu, ← unitAt_lt hiv,
      indexOf_map_unitAt (hinj iu hiu), indexOf_map_unitAt (hinj iv hiv)]
    exact hidx

/-- The resolver panics iff the edge pass does. -/
theorem generate_eq_none {units : List UnitFile}
    (h : buildEdges (buildIdxMap units) units = none) :
    generate_unit_list units = none := by
  simp [generate_unit_list, h]

/-- A failed bounded self-reachability scan rules out every short cycle. -/
theorem acyclic_of_reaches_false {es : List (Nat × Nat)} {n : Nat}
    (h : ∀ v ∈ List.range n, reachesIn es n v v = false) :
    ∀ v k, k ≤ n → ¬ PathW es (List.range n) k v v := by
  intro v k hk hp
  have hv := hp.mem.1
  have := reachesIn_complete hp (f := n) hk
  rw [h v hv] at this
  cases this

/-- C2: whenever some unit declares a dependency name borne by no unit of
the collection, `generate_unit_list` fails with a missing-dependency error
carrying a (declaring unit name, missing name) pair of exactly that kind —
it never returns an ordering.  (With several missing names the code reports
the first one encountered; the theorem exhibits the reported pair.) -/
theorem resolve_missing_dep (units : List UnitFile)
    (hmiss : ∃ u ∈ units, ∃ d ∈ u.dependency.needs_before ++ u.dependency.needs_after,
      ∀ v ∈ units, v.unit.unit_name ≠ d) :
    ∃ u ∈ units, ∃ d ∈ u.dependency.needs_before ++ u.dependency.needs_after,
      (∀ v ∈ units, v.unit.unit_name ≠ d) ∧
      generate_unit_list units =
        some (.error (.LoadError (.MissingDependency u.unit.unit_name d))) := by
  have hnn : buildEdges (buildIdxMap units) units ≠ none :=
    buildEdges_ne_none (fun u hu => by
      obtain ⟨v, hv⟩ := lookup_own_some hu
      simp [hv])
  cases hbe : buildEdges (buildIdxMap units) units with
  | none => exact absurd hbe hnn
  | some r =>
    cases r with
    | ok es =>
      exfalso
      obtain ⟨u, hu, d, hd, hnone⟩ := hmiss
      exact buildEdges_ok_resolves hbe u hu d hd (buildIdxMapAux_lookup_none.mpr hnone)
    | error e =>
      obtain ⟨u, hu, d, hd, hnone, he⟩ := buildEdges_error hbe
      subst he
      exact ⟨u, hu, d, hd, buildIdxMapAux_lookup_none.mp hnone, generate_eq_of_err hbe⟩

/-- Witness for C2: the missing-dependency theorem applied to the spec's own
example, unit `X` depending on absent `ghost`. -/
theorem resolve_missing_dep_witness :
    ∃ u ∈ [sampleUnit "X" ["ghost"] []],
      ∃ d ∈ u.dependency.needs_before ++ u.dependency.needs_after,
        (∀ v ∈ [sampleUnit "X" ["ghost"] []], v.unit.unit_name ≠ d) ∧
        generate_unit_list [sampleUnit "X" ["ghost"] []] =
          some (.error (.LoadError (.MissingDependency u.unit.unit_name d))) :=
  resolve_missing_dep [sampleUnit "X" ["ghost"] []] (by decide)

/-- C3: whenever every dependency name resolves but the built graph has a
cycle, `generate_unit_list` fails with a `DependencyCycle` error whose
carried name is the unit name of an in-bounds unit lying on a cycle of that
graph. -/
theorem resolve_cycle_err (units : List UnitFile)
    (hres : AllDepsResolvable units)
    (hcyc : ∃ v k, PathW (resolvedEdges units) (List.range units.length) k v v) :
    ∃ w, w < units.length ∧
      generate_unit_list units =
        some (.error (.DependencyCycle (unitAt units w).unit.unit_name)) ∧
      ∃ k, PathW (resolvedEdges units) (List.range units.length) k w w :=
  generate_err_of_cycle (resolvedEdges_ok hres) hcyc

/-- Witness for C3: the cycle theorem applied to the spec's own two-cycle
example `X.needs_before = [Y]`, `Y.needs_before = [X]`. -/
theorem resolve_cycle_err_witness :
    ∃ w, w < ([sampleUnit "X" ["Y"] [], sampleUnit "Y" ["X"] []]).length ∧
      generate_unit_list [sampleUnit "X" ["Y"] [], sampleUnit "Y" ["X"] []] =
        some (.error (.DependencyCycle
          (unitAt [sampleUnit "X" ["Y"] [], sampleUnit "Y" ["X"] []] w).unit.unit_name)) ∧
      ∃ k, PathW (resolvedEdges [sampleUnit "X" ["Y"] [], sampleUnit "Y" ["X"] []])
        (List.range ([sampleUnit "X" ["Y"] [], sampleUnit "Y" ["X"] []]).length) k w w :=
  resolve_cycle_err [sampleUnit "X" ["Y"] [], sampleUnit "Y" ["X"] []] (by decide)
    ⟨0, 2, PathW.cons (a := 0) (b := 1) (c := 0) (k := 1) (by decide) (by decide)
      (PathW.single (by decide) (by decide) (by decide))⟩

/-- C5: the resolver is deterministic — equal inputs give equal results
(it is a pure function of the unit collection). -/
theorem resolve_deterministic (us1 us2 : List UnitFile) (h : us1 = us2) :
    generate_unit_list us1 = generate_unit_list us2 := by
  rw [h]

/-- Witness for C5 at a concrete input. -/
theorem resolve_deterministic_witness :
    generate_unit_list [sampleUnit "A" ["B"] [], sampleUnit "B" [] []] =
      generate_unit_list [sampleUnit "A" ["B"] [], sampleUnit "B" [] []] :=
  resolve_deterministic _ _ rfl

/-- C6: the empty collection resolves to the empty ordering, never an
error. -/
theorem resolve_empty_ok : generate_unit_list [] = some (.ok []) := rfl

/-- C10: for every input collection — duplicate or un-validated names
included — each unit's own-name lookup in the index succeeds (the
`.unwrap()` cannot fail), and the resolver never panics: it always returns
a value. -/
theorem resolve_no_panic (units : List UnitFile) :
    (∀ u ∈ units, ∃ v, lookupLast (buildIdxMap units) u.unit.unit_name = some v) ∧
    ∃ r, generate_unit_list units = some r := by
  refine ⟨fun u hu => lookup_own_some hu, ?_⟩
  have hnn : buildEdges (buildIdxMap units) units ≠ none :=
    buildEdges_ne_none (fun u hu => by
      obtain ⟨v, hv⟩ := lookup_own_some hu
      simp [hv])
  cases hbe : buildEdges (buildIdxMap units) units with
  | none => exact absurd hbe hnn
  | some r => exact generate_some_of_edges hbe

/-- Witness for C1: the ordering theorem applied to the acyclic chain
`A before B`, `B before C`. -/
theorem resolve_acyclic_perm_ordered_witness :
    ∃ ordered,
      generate_unit_list
          [sampleUnit "A" ["B"] [], sampleUnit "B" ["C"] [], sampleUnit "C" [] []] =
        some (.ok ordered) ∧
      ordered.Perm [sampleUnit "A" ["B"] [], sampleUnit "B" ["C"] [], sampleUnit "C" [] []] ∧
      (∀ u ∈ [sampleUnit "A" ["B"] [], sampleUnit "B" ["C"] [], sampleUnit "C" [] []],
        ∀ d ∈ u.dependency.needs_before,
          ∀ v ∈ [sampleUnit "A" ["B"] [], sampleUnit "B" ["C"] [], sampleUnit "C" [] []],
            v.unit.unit_name = d → ordered.indexOf u < ordered.indexOf v) ∧
      (∀ u ∈ [sampleUnit "A" ["B"] [], sampleUnit "B" ["C"] [], sampleUnit "C" [] []],
        ∀ d ∈ u.dependency.needs_after,
          ∀ v ∈ [sampleUnit "A" ["B"] [], sampleUnit "B" ["C"] [], sampleUnit "C" [] []],
            v.unit.unit_name = d → ordered.indexOf v < ordered.indexOf u) :=
  resolve_acyclic_perm_ordered _ (by decide) (by decide)
    (acyclic_of_reaches_false (by decide))

/-- Counterexample for C9 as stated: the collection `[X, Y, U]` has
`X.needs_before = [Y]`, `Y.needs_before = [X]` and the self-dependent unit
`U.needs_before = [U]`; resolution does fail, but the reported cycle node is
a unit of the X–Y cycle, not the self-dependent unit `U`.  (The Rust binary
likewise reports a unit of the X–Y cycle here — petgraph's DFS picks `Y`,
this model's source-removal sort picks `X`; both refute "naming that
unit".) -/
theorem resolve_self_dep_counterexample :
    (sampleUnit "U" ["U"] []).unit.unit_name = "U" ∧
    "U" ∈ (sampleUnit "U" ["U"] []).dependency.needs_before ∧
    generate_unit_list
        [sampleUnit "X" ["Y"] [], sampleUnit "Y" ["X"] [], sampleUnit "U" ["U"] []] =
      some (.error (.DependencyCycle "X")) ∧
    ("X" : String) ≠ "U" := by
  refine ⟨rfl, by decide, by decide, by decide⟩

/-- C9 (amended): a collection (distinct names) containing a self-dependent
unit never resolves to an ordering; when additionally every dependency name
resolves, the failure is a `DependencyCycle` naming some unit that lies on a
cycle of the built graph (the self-loop guarantees one exists, but the
reported unit need not be the self-dependent one). -/
theorem resolve_self_dep_never_ok (units : List UnitFile)
    (hnodup : (units.map (fun u => u.unit.unit_name)).Nodup)
    (hself : ∃ u ∈ units,
      u.unit.unit_name ∈ u.dependency.needs_before ++ u.dependency.needs_after) :
    (∀ ordered, generate_unit_list units ≠ some (.ok ordered)) ∧
    (AllDepsResolvable units →
      ∃ w, w < units.length ∧
        generate_unit_list units =
          some (.error (.DependencyCycle (unitAt units w).unit.unit_name)) ∧
        ∃ k, PathW (resolvedEdges units) (List.range units.length) k w w) := by
  obtain ⟨u, hu, hd⟩ := hself
  obtain ⟨iu, hiu, rfl⟩ := List.getElem_of_mem hu
  have hlu : lookupLast (buildIdxMap units) units[iu].unit.unit_name = some iu := by
    have := buildIdxMap_lookup_nodup hnodup hiu
    rwa [unitAt_lt hiu] at this
  have hself_edge : ∀ es, buildEdges (buildIdxMap units) units = some (.ok es) →
      (iu, iu) ∈ es := by
    intro es hbe
    have hm := buildEdges_ok_mem hbe _ hu iu hlu
    rcases List.mem_append.mp hd with hdb | hda
    · exact hm.1 _ hdb iu hlu
    · exact hm.2 _ hda iu hlu
  constructor
  · intro ordered hok
    cases hbe : buildEdges (buildIdxMap units) units with
    | none => rw [generate_eq_none hbe] at hok; cases hok
    | some r =>
      cases r with
      | error e => rw [generate_eq_of_err hbe] at hok; simp at hok
      | ok es =>
        obtain ⟨w, hw, hgen, -⟩ := generate_err_of_cycle hbe
          ⟨iu, 1, .single (hself_edge es hbe) (List.mem_range.mpr hiu) (List.mem_range.mpr hiu)⟩
        rw [hgen] at hok
        simp at hok
  · intro hres
    have hbe := resolvedEdges_ok hres
    exact generate_err_of_cycle hbe
      ⟨iu, 1, .single (hself_edge _ hbe) (List.mem_range.mpr hiu) (List.mem_range.mpr hiu)⟩

/-- Witness for the amended C9 at the one-unit self-dependent collection. -/
theorem resolve_self_dep_never_ok_witness :
    (∀ ordered, generate_unit_list [sampleUnit "U" ["U"] []] ≠ some (.ok ordered)) ∧
    (AllDepsResolvable [sampleUnit "U" ["U"] []] →
      ∃ w, w < ([sampleUnit "U" ["U"] []]).length ∧
        generate_unit_list [sampleUnit "U" ["U"] []] =
          some (.error (.DependencyCycle
            (unitAt [sampleUnit "U" ["U"] []] w).unit.unit_name)) ∧
        ∃ k, PathW (resolvedEdges [sampleUnit "U" ["U"] []])
          (List.range ([sampleUnit "U" ["U"] []]).length) k w w) :=
  resolve_self_dep_never_ok _ (by decide) (by decide)

/-- C4: when two units share a name (index `i` earlier, `j` later and last
bearer of the name), the name-to-node index keeps only the later unit's node
`j` for that name, so every dependency edge declared with that name attaches
to node `j` — target of a `needs_before` edge, source of a `needs_after`
edge — never to node `i`; yet the graph still has one node per unit, `i` and
`j` included. -/
theorem duplicate_name_later_node (units : List UnitFile) (i j : Nat)
    (hij : i < j) (hj : j < units.length)
    (hsame : (unitAt units j).unit.unit_name = (unitAt units i).unit.unit_name)
    (hlast : ∀ m, m < units.length →
      (unitAt units m).unit.unit_name = (unitAt units i).unit.unit_name → m ≤ j) :
    lookupLast (buildIdxMap units) (unitAt units i).unit.unit_name = some j ∧
    (∀ es, buildEdges (buildIdxMap units) units = some (.ok es) →
      ∀ u ∈ units, ∀ fr, lookupLast (buildIdxMap units) u.unit.unit_name = some fr →
        ((unitAt units i).unit.unit_name ∈ u.dependency.needs_before → (fr, j) ∈ es) ∧
        ((unitAt units i).unit.unit_name ∈ u.dependency.needs_after → (j, fr) ∈ es)) ∧
    (graphWeights units).length = units.length ∧ i ≠ j := by
  have hl : lookupLast (buildIdxMap units) (unitAt units i).unit.unit_name = some j := by
    have hmax : ∀ m, m < units.length → j < m →
        (unitAt units m).unit.unit_name ≠ (unitAt units i).unit.unit_name := by
      intro m hm hjm hname
      have := hlast m hm hname
      omega
    have := buildIdxMapAux_lookup_last (b := 0) hj hsame hmax
    simpa using this
  refine ⟨hl, ?_, by simp [graphWeights], by omega⟩
  intro es hbe u hu fr hfr
  have hm := buildEdges_ok_mem hbe u hu fr hfr
  exact ⟨fun hd => hm.1 _ hd j hl, fun hd => hm.2 _ hd j hl⟩

/-- Witness for C4: two units named `A` at indices 0 and 1, a third unit
declaring `A` both before and after. -/
theorem duplicate_name_later_node_witness :
    lookupLast (buildIdxMap [sampleUnit "A" [] [], sampleUnit "A" [] [],
        sampleUnit "B" ["A"] ["A"]])
      (unitAt [sampleUnit "A" [] [], sampleUnit "A" [] [],
        sampleUnit "B" ["A"] ["A"]] 0).unit.unit_name = some 1 ∧
    (∀ es, buildEdges
        (buildIdxMap [sampleUnit "A" [] [], sampleUnit "A" [] [], sampleUnit "B" ["A"] ["A"]])
        [sampleUnit "A" [] [], sampleUnit "A" [] [], sampleUnit "B" ["A"] ["A"]] =
          some (.ok es) →
      ∀ u ∈ [sampleUnit "A" [] [], sampleUnit "A" [] [], sampleUnit "B" ["A"] ["A"]],
        ∀ fr, lookupLast
            (buildIdxMap [sampleUnit "A" [] [], sampleUnit "A" [] [],
              sampleUnit "B" ["A"] ["A"]]) u.unit.unit_name = some fr →
          ((unitAt [sampleUnit "A" [] [], sampleUnit "A" [] [],
              sampleUnit "B" ["A"] ["A"]] 0).unit.unit_name ∈ u.dependency.needs_before →
            (fr, 1) ∈ es) ∧
          ((unitAt [sampleUnit "A" [] [], sampleUnit "A" [] [],
              sampleUnit "B" ["A"] ["A"]] 0).unit.unit_name ∈ u.dependency.needs_after →
            (1, fr) ∈ es)) ∧
    (graphWeights [sampleUnit "A" [] [], sampleUnit "A" [] [],
      sampleUnit "B" ["A"] ["A"]]).length =
      ([sampleUnit "A" [] [], sampleUnit "A" [] [], sampleUnit "B" ["A"] ["A"]]).length ∧
    (0 : Nat) ≠ 1 :=
  duplicate_name_later_node _ 0 1 (by decide) (by decide) (by decide) (by decide)

/-- Every message the dependency-rule pass emits is the dependency
message. -/
theorem depErrs_mem {deps : List String} {x : String}
    (hx : x ∈ deps.filterMap
      (fun dep => if trimEmpty dep then some "Dependency name cannot be empty" else none)) :
    x = "Dependency name cannot be empty" := by
  simp only [List.mem_filterMap] at hx
  obtain ⟨d, hd, hif⟩ := hx
  by_cases h : trimEmpty d
  · rw [if_pos h] at hif; cases hif; rfl
  · rw [if_neg h] at hif; cases hif

/-- The dependency-rule pass emits one message per empty declared name. -/
theorem depErrs_count {deps : List String} :
    (deps.filterMap
      (fun dep => if trimEmpty dep then some "Dependency name cannot be empty" else none)).count
        "Dependency name cannot be empty" =
      (deps.filter (fun d => trimEmpty d)).length := by
  induction deps with
  | nil => rfl
  | cons d rest ih =>
    by_cases h : trimEmpty d
    · simp [List.filterMap_cons, List.filter_cons, h, List.count_cons, ih]
    · simp [List.filterMap_cons, List.filter_cons, h, ih]

/-- The dependency-rule pass is silent exactly when no declared name is
blank. -/
theorem depErrs_nil_iff {deps : List String} :
    deps.filterMap
        (fun dep => if trimEmpty dep then some "Dependency name cannot be empty" else none) =
        [] ↔
      ∀ d ∈ deps, trimEmpty d = false := by
  rw [List.filterMap_eq_nil_iff]
  constructor
  · intro h d hd
    have := h d hd
    by_cases hb : trimEmpty d
    · rw [if_pos hb] at this; cases this
    · simpa using hb
  · intro h d hd
    simp [h d hd]

/-- Rule characterisation: `validate` succeeds exactly when no rule is violated: nonblank name,
nonblank todo path, the section demanded by the unit type present, and no
blank dependency name. -/
theorem validate_ok_iff (u : UnitFile) :
    u.validate = .ok () ↔
      (trimEmpty u.unit.unit_name = false ∧ trimEmpty u.todo.path = false ∧
       (u.unit.unit_type = .Service → u.service.isSome) ∧
       (u.unit.unit_type = .Target → u.target.isSome) ∧
       ∀ d ∈ u.dependency.needs_before ++ u.dependency.needs_after, trimEmpty d = false) := by
  cases he4 : (u.dependency.needs_before ++ u.dependency.needs_after).filterMap
      (fun dep => if trimEmpty dep then some "Dependency name cannot be empty" else none) with
  | nil =>
    have h4 := depErrs_nil_iff.mp he4
    have h4' : ∀ d, (d ∈ u.dependency.needs_before ∨ d ∈ u.dependency.needs_after) →
        trimEmpty d = false := fun d hd => h4 d (List.mem_append.mpr hd)
    cases htype : u.unit.unit_type with
    | Service =>
      by_cases h1 : trimEmpty u.unit.unit_name <;>
        by_cases h2 : trimEmpty u.todo.path <;>
          by_cases h3 : u.service = none <;>
            (simp [UnitFile.validate, htype, h1, h2, h3, he4,
              Option.isNone_iff_eq_none, Option.isSome_iff_ne_none]
             <;> exact h4')
    | Target =>
      by_cases h1 : trimEmpty u.unit.unit_name <;>
        by_cases h2 : trimEmpty u.todo.path <;>
          by_cases h3 : u.target = none <;>
            (simp [UnitFile.validate, htype, h1, h2, h3, he4,
              Option.isNone_iff_eq_none, Option.isSome_iff_ne_none]
             <;> exact h4')
  | cons m ms =>
    have h4 : ¬ ∀ d ∈ u.dependency.needs_before ++ u.dependency.needs_after,
        trimEmpty d = false := by
      intro hall
      rw [depErrs_nil_iff.mpr hall] at he4
      cases he4
    constructor
    · intro h
      exfalso
      cases htype : u.unit.unit_type with
      | Service =>
        by_cases h1 : trimEmpty u.unit.unit_name <;>
          by_cases h2 : trimEmpty u.todo.path <;>
            by_cases h3 : u.service = none <;>
              simp [UnitFile.validate, htype, h1, h2, h3, he4,
                Option.isNone_iff_eq_none] at h
      | Target =>
        by_cases h1 : trimEmpty u.unit.unit_name <;>
          by_cases h2 : trimEmpty u.todo.path <;>
            by_cases h3 : u.target = none <;>
              simp [UnitFile.validate, htype, h1, h2, h3, he4,
                Option.isNone_iff_eq_none] at h
    · rintro ⟨-, -, -, -, hall⟩
      exact absurd hall h4

/-- A non-dependency message never occurs among the dependency-rule
messages. -/
theorem not_mem_depErrs {deps : List String} {x : String}
    (hx : x ≠ "Dependency name cannot be empty") :
    x ∉ deps.filterMap
      (fun dep => if trimEmpty dep then some "Dependency name cannot be empty" else none) :=
  fun hmem => hx (depErrs_mem hmem)

/-- Membership in a conditionally-emitted singleton message list. -/
theorem mem_ite_singleton {c : Prop} [Decidable c] {x m : String} :
    (m ∈ if c then [x] else []) ↔ (c ∧ m = x) := by
  by_cases h : c <;> simp [h]

/-- A conditionally-emitted singleton of a different message contributes no
occurrences. -/
theorem count_ite_singleton {c : Prop} [Decidable c] {x m : String} (hne : ¬ x = m) :
    (if c then [x] else []).count m = 0 := by
  by_cases h : c <;> simp [h, List.count_cons, List.count_nil, hne]

/-- An if-then-else returning `Except.error` forces the error payload. -/
theorem except_ite_error {c : Prop} [Decidable c] {L es : List String}
    (h : (if c then Except.ok () else Except.error L) = Except.error es) : es = L := by
  split at h
  · cases h
  · injection h with h'
    exact h'.symm

/-- A failing `validate` returns exactly the accumulated message list. -/
theorem validate_error_eq {u : UnitFile} {es : List String}
    (h : u.validate = .error es) :
    es = (if trimEmpty u.unit.unit_name then ["Unit name cannot be empty"] else []) ++
      (if trimEmpty u.todo.path then ["Todo path cannot be empty"] else []) ++
      (match u.unit.unit_type with
        | .Service => if u.service.isNone then ["Service unit requires [service] section"] else []
        | .Target => if u.target.isNone then ["Target unit requires [target] section"] else []) ++
      ((u.dependency.needs_before ++ u.dependency.needs_after).filterMap
        (fun dep => if trimEmpty dep then some "Dependency name cannot be empty" else none)) := by
  simp only [UnitFile.validate] at h
  exact except_ite_error h

/-- A failing `validate` reports every violated rule, not only the first:
each rule's message is present iff that rule is violated, and the
dependency message occurs once per blank declared name. -/
theorem validate_error_mem (u : UnitFile) (es : List String)
    (h : u.validate = .error es) :
    (trimEmpty u.unit.unit_name = true ↔ "Unit name cannot be empty" ∈ es) ∧
    (trimEmpty u.todo.path = true ↔ "Todo path cannot be empty" ∈ es) ∧
    ((u.unit.unit_type = .Service ∧ u.service = none) ↔
      "Service unit requires [service] section" ∈ es) ∧
    ((u.unit.unit_type = .Target ∧ u.target = none) ↔
      "Target unit requires [target] section" ∈ es) ∧
    es.count "Dependency name cannot be empty" =
      ((u.dependency.needs_before ++ u.dependency.needs_after).filter
        (fun d => trimEmpty d)).length := by
  have hes := validate_error_eq h
  subst hes
  refine ⟨?_, ?_, ?_, ?_, ?_⟩
  · cases htype : u.unit.unit_type <;>
      by_cases h1 : trimEmpty u.unit.unit_name <;>
        simp [htype, h1, List.mem_append, mem_ite_singleton,
          not_mem_depErrs (show "Unit name cannot be empty" ≠
            "Dependency name cannot be empty" by decide)]
  · cases htype : u.unit.unit_type <;>
      by_cases h2 : trimEmpty u.todo.path <;>
        simp [htype, h2, List.mem_append, mem_ite_singleton,
          not_mem_depErrs (show "Todo path cannot be empty" ≠
            "Dependency name cannot be empty" by decide)]
  · cases htype : u.unit.unit_type <;>
      simp [htype, List.mem_append, mem_ite_singleton, Option.isNone_iff_eq_none,
        not_mem_depErrs (show "Service unit requires [service] section" ≠
          "Dependency name cannot be empty" by decide)]
  · cases htype : u.unit.unit_type <;>
      simp [htype, List.mem_append, mem_ite_singleton, Option.isNone_iff_eq_none,
        not_mem_depErrs (show "Target unit requires [target] section" ≠
          "Dependency name cannot be empty" by decide)]
  · cases htype : u.unit.unit_type <;>
      simp [htype, List.count_append, depErrs_count,
        count_ite_singleton (show ¬ "Unit name cannot be empty" =
          "Dependency name cannot be empty" by decide),
        count_ite_singleton (show ¬ "Todo path cannot be empty" =
          "Dependency name cannot be empty" by decide),
        count_ite_singleton (show ¬ "Service unit requires [service] section" =
          "Dependency name cannot be empty" by decide),
        count_ite_singleton (show ¬ "Target unit requires [target] section" =
          "Dependency name cannot be empty" by decide)]

/-- C7: `validate` is a pure function evaluating the four rules
independently: it succeeds exactly when no rule is violated, and on failure
its message list reflects every violated rule — one membership per violated
rule and one dependency message per blank declared name — not only the
first. -/
theorem validate_complete_rules (u : UnitFile) :
    (u.validate = .ok () ↔
      (trimEmpty u.unit.unit_name = false ∧ trimEmpty u.todo.path = false ∧
       (u.unit.unit_type = .Service → u.service.isSome) ∧
       (u.unit.unit_type = .Target → u.target.isSome) ∧
       ∀ d ∈ u.dependency.needs_before ++ u.dependency.needs_after,
         trimEmpty d = false)) ∧
    (∀ es, u.validate = .error es →
      (trimEmpty u.unit.unit_name = true ↔ "Unit name cannot be empty" ∈ es) ∧
      (trimEmpty u.todo.path = true ↔ "Todo path cannot be empty" ∈ es) ∧
      ((u.unit.unit_type = .Service ∧ u.service = none) ↔
        "Service unit requires [service] section" ∈ es) ∧
      ((u.unit.unit_type = .Target ∧ u.target = none) ↔
        "Target unit requires [target] section" ∈ es) ∧
      es.count "Dependency name cannot be empty" =
        ((u.dependency.needs_before ++ u.dependency.needs_after).filter
          (fun d => trimEmpty d)).length) :=
  ⟨validate_ok_iff u, fun es h => validate_error_mem u es h⟩

/-- Witness for C7: the error-side of the rule-completeness theorem applied
to a unit violating three rules at once; all three messages are reported
together. -/
theorem validate_complete_rules_witness :
    (trimEmpty blankUnit.unit.unit_name = true ↔
      "Unit name cannot be empty" ∈
        ["Unit name cannot be empty", "Todo path cannot be empty",
          "Dependency name cannot be empty"]) ∧
    (trimEmpty blankUnit.todo.path = true ↔
      "Todo path cannot be empty" ∈
        ["Unit name cannot be empty", "Todo path cannot be empty",
          "Dependency name cannot be empty"]) ∧
    ((blankUnit.unit.unit_type = .Service ∧ blankUnit.service = none) ↔
      "Service unit requires [service] section" ∈
        ["Unit name cannot be empty", "Todo path cannot be empty",
          "Dependency name cannot be empty"]) ∧
    ((blankUnit.unit.unit_type = .Target ∧ blankUnit.target = none) ↔
      "Target unit requires [target] section" ∈
        ["Unit name cannot be empty", "Todo path cannot be empty",
          "Dependency name cannot be empty"]) ∧
    (["Unit name cannot be empty", "Todo path cannot be empty",
        "Dependency name cannot be empty"].count "Dependency name cannot be empty" =
      ((blankUnit.dependency.needs_before ++ blankUnit.dependency.needs_after).filter
        (fun d => trimEmpty d)).length) :=
  (validate_complete_rules blankUnit).2
    ["Unit name cannot be empty", "Todo path cannot be empty",
      "Dependency name cannot be empty"] (by decide)

/-- Counterexample for C8 as stated: `validate` accepts a Service unit that
carries both sections, so an accepted unit need not have exactly one of
ServiceSection/TargetSection present. -/
theorem validate_exactly_one_counterexample :
    bothSectionsUnit.validate = .ok () ∧
    bothSectionsUnit.unit.unit_type = .Service ∧
    bothSectionsUnit.service.isSome = true ∧
    bothSectionsUnit.target.isSome = true := by
  refine ⟨by decide, rfl, rfl, rfl⟩

/-- C8 (amended): every UnitFile accepted by `validate` has the section
matching its unit_type present (service section for Service, target section
for Target); the non-matching section may additionally be present, since
`validate` does not enforce exclusivity. -/
theorem validate_matching_section (u : UnitFile) (h : u.validate = .ok ()) :
    (u.unit.unit_type = .Service → u.service.isSome) ∧
    (u.unit.unit_type = .Target → u.target.isSome) := by
  have hx := (validate_ok_iff u).mp h
  exact ⟨hx.2.2.1, hx.2.2.2.1⟩

/-- Witness for the amended C8 at a concrete accepted Service unit. -/
theorem validate_matching_section_witness :
    ((sampleUnit "ok" [] []).unit.unit_type = .Service →
      (sampleUnit "ok" [] []).service.isSome) ∧
    ((sampleUnit "ok" [] []).unit.unit_type = .Target →
      (sampleUnit "ok" [] []).target.isSome) :=
  validate_matching_section _ (by decide)
